import Mathlib

/-!
Verification of the marketing-agent publishing core.

This file gives a shallow embedding, in Lean 4, of the pure content of the
post-lifecycle routes, the RAG ingest/sanitization pipeline, the metrics
scoring, the channel publish adapters and the scheduler of the
marketing-agent repository, and proves or refutes the specification claims
about them.

Conventions of the embedding:
* JavaScript strings are modelled as `String`/`List Char`; `.length` is the
  character count (all characters involved in the claims are in the basic
  multilingual plane, where this agrees with JavaScript's UTF-16 count).
* Database tables are modelled as lists of row records; `SELECT ... LIMIT 1`
  is `List.find?`, `INSERT` appends, `UPDATE ... WHERE id` maps over the list.
* Nondeterministic inputs of the code (clock readings, random UUIDs, network
  responses, environment variables) are passed in as explicit parameters.
* Fallible operations return `Except String` mirroring thrown `Error`s.
-/

/-! ## Character and string utilities shared by several modules -/

/-- The character class matched by the JavaScript regular-expression `\s`
(and stripped by `String.prototype.trim`). -/
def isJsWs (c : Char) : Bool :=
  c.toNat = 32 || c.toNat = 9 || c.toNat = 10 || c.toNat = 11 || c.toNat = 12 ||
  c.toNat = 13 || c.toNat = 0xa0 || c.toNat = 0x1680 ||
  (0x2000 ≤ c.toNat && c.toNat ≤ 0x200a) || c.toNat = 0x2028 || c.toNat = 0x2029 ||
  c.toNat = 0x202f || c.toNat = 0x205f || c.toNat = 0x3000 || c.toNat = 0xfeff

/-- ASCII lower-casing of one character, the case folding performed by the
`i` flag on the (non-Unicode-mode) regular expressions of the source. -/
def lcChar (c : Char) : Char :=
  if 65 ≤ c.toNat ∧ c.toNat ≤ 90 then Char.ofNat (c.toNat + 32) else c

/-- Drop leading JS whitespace. -/
def dropWsLeft (s : List Char) : List Char :=
  s.dropWhile isJsWs

/-- `String.prototype.trim`: drop JS whitespace from both ends. -/
def trimJs (s : List Char) : List Char :=
  ((s.dropWhile isJsWs).reverse.dropWhile isJsWs).reverse

/-- `asString` from `apps/server/src/utils/db.ts`: a trimmed non-empty string,
else `null`.  (`typeof value === 'string' && value.trim() ? value.trim() : null`.) -/
def asString (value : Option String) : Option String :=
  match value with
  | none => none
  | some s =>
    let t := String.mk (trimJs s.toList)
    if t = ("" : String) then none else some t

/-! ## Post data model (`apps/server/src/api/routes/posts.ts`, revision with
idempotency keys) -/

/-- `PostChannel` of the routes and shared types. -/
inductive PostChannel where
  | naverBlog
  | instagram
  | threads
  | nextjsBlog
deriving DecidableEq, Repr

/-- `PostStatus` of the routes and shared types. -/
inductive PostStatus where
  | draft
  | review
  | approved
  | publishing
  | published
  | failed
deriving DecidableEq, Repr

/-- The channel strings of the `CHANNELS` array, as a parser. -/
def parsePostChannel (s : String) : Option PostChannel :=
  if s = ("naver-blog" : String) then some .naverBlog
  else if s = ("instagram" : String) then some .instagram
  else if s = ("threads" : String) then some .threads
  else if s = ("nextjs-blog" : String) then some .nextjsBlog
  else none

/-- The status strings of the `STATUSES` array, as a parser. -/
def parsePostStatus (s : String) : Option PostStatus :=
  if s = ("draft" : String) then some .draft
  else if s = ("review" : String) then some .review
  else if s = ("approved" : String) then some .approved
  else if s = ("publishing" : String) then some .publishing
  else if s = ("published" : String) then some .published
  else if s = ("failed" : String) then some .failed
  else none

/-- Rendering of a status back to its wire string. -/
def postStatusString : PostStatus → String
  | .draft => ("draft" : String)
  | .review => ("review" : String)
  | .approved => ("approved" : String)
  | .publishing => ("publishing" : String)
  | .published => ("published" : String)
  | .failed => ("failed" : String)

/-- `isValidChannel` of the routes. -/
def isValidChannel (s : String) : Bool :=
  (parsePostChannel s).isSome

/-- `isValidStatus` of the routes. -/
def isValidStatus (s : String) : Bool :=
  (parsePostStatus s).isSome

/-- The `Post` entity as stored in the `posts` table (idempotency-key
revision).  The enum-valued columns are modelled with their parsed enums. -/
structure Post where
  id : String
  customerId : String
  channel : PostChannel
  status : PostStatus
  title : String
  content : String
  images : List String
  tags : List String
  scheduledAt : String
  publishedAt : Option String
  publishedUrl : Option String
  errorMessage : Option String
  retryCount : Nat
  idempotencyKey : Option String
  createdAt : String
  updatedAt : String
deriving DecidableEq, Repr

/-- `ALLOWED_STATUS_TRANSITIONS` from the posts routes. -/
def allowedStatusTransitions : PostStatus → List PostStatus
  | .draft => [.review, .approved, .failed]
  | .review => [.approved, .failed, .draft]
  | .approved => [.publishing, .failed]
  | .publishing => [.published, .failed]
  | .published => []
  | .failed => [.draft, .approved]

/-- `getPostById`: `SELECT * FROM posts WHERE id = $1 LIMIT 1`. -/
def getPostById (store : List Post) (id : String) : Option Post :=
  store.find? (fun p => p.id = id)

/-- `getPostByCustomerAndIdempotencyKey`:
`SELECT * FROM posts WHERE customer_id = $1 AND idempotency_key = $2 LIMIT 1`. -/
def getPostByCustomerAndIdempotencyKey (store : List Post) (customerId idempotencyKey : String) :
    Option Post :=
  store.find? (fun p => p.customerId = customerId ∧ p.idempotencyKey = some idempotencyKey)

/-- Request body of `PATCH /posts/:id/status`. -/
structure PatchStatusBody where
  status : Option String
  publishedAt : Option String
  publishedUrl : Option String
  errorMessage : Option String
deriving DecidableEq, Repr

/-- Responses of the posts routes (HTTP status plus JSON body, abstracted). -/
inductive PostsResponse where
  | notFound
  | badRequest (message : String)
  | okPost (post : Option Post)
  | createdPost (post : Option Post)
deriving DecidableEq, Repr

/-- The `PATCH /posts/:id/status` handler of `createPostsRouter`: look the post
up, validate the target status, reject a transition outside
`allowedStatusTransitions` with a 400 and no write, otherwise update status,
published fields and `updated_at`.  Returns the updated store and the
response. -/
def patchPostStatus (store : List Post) (targetId : String) (body : PatchStatusBody)
    (now : String) : List Post × PostsResponse :=
  match getPostById store targetId with
  | none => (store, .notFound)
  | some existing =>
    match body.status.bind parsePostStatus with
    | none => (store, .badRequest ("status is invalid"))
    | some nextStatus =>
      if nextStatus ∈ allowedStatusTransitions existing.status then
        let publishedAt :=
          if nextStatus = .published then some ((asString body.publishedAt).getD now)
          else existing.publishedAt
        let publishedUrl :=
          match asString body.publishedUrl with
          | some u => some u
          | none => existing.publishedUrl
        let errorMessage := asString body.errorMessage
        let store' := store.map (fun p =>
          if p.id = targetId then
            { p with
              status := nextStatus
              publishedAt := publishedAt
              publishedUrl := publishedUrl
              errorMessage := errorMessage
              updatedAt := now }
          else p)
        (store', .okPost (getPostById store' targetId))
      else
        (store,
          .badRequest (("Invalid status transition: " : String) ++
            postStatusString existing.status ++ (" -> " : String) ++
            postStatusString nextStatus))

/-- C1: an update whose target status is outside the allowed set of the
current status answers with the invalid-transition error and returns the
store untouched (hence the post's status and `updatedAt` are unchanged). -/
theorem patchPostStatus_invalid_transition
    (store : List Post) (targetId : String) (body : PatchStatusBody) (now : String)
    (existing : Post) (nextStatus : PostStatus)
    (hfind : getPostById store targetId = some existing)
    (hparse : body.status.bind parsePostStatus = some nextStatus)
    (hnot : nextStatus ∉ allowedStatusTransitions existing.status) :
    patchPostStatus store targetId body now =
      (store,
        .badRequest (("Invalid status transition: " : String) ++
          postStatusString existing.status ++ (" -> " : String) ++
          postStatusString nextStatus)) := by
  unfold patchPostStatus
  rw [hfind, hparse]
  simp [hnot]

/-- A concrete already-published post used by the witnesses below. -/
def publishedFixturePost : Post :=
  { id := ("p1" : String)
    customerId := ("c1" : String)
    channel := .threads
    status := .published
    title := ("t" : String)
    content := ("b" : String)
    images := []
    tags := []
    scheduledAt := ("2026-01-01" : String)
    publishedAt := none
    publishedUrl := none
    errorMessage := none
    retryCount := 0
    idempotencyKey := none
    createdAt := ("2026-01-01" : String)
    updatedAt := ("2026-01-01" : String) }

/-- A patch request asking the published fixture post to go back to draft. -/
def draftPatchBody : PatchStatusBody :=
  { status := some ("draft" : String)
    publishedAt := none
    publishedUrl := none
    errorMessage := none }

/-- C1 witness: a concrete instance of the invalid-transition contract, with a
published post asked to go back to draft. -/
theorem patchPostStatus_invalid_transition_witness :
    getPostById [publishedFixturePost] ("p1" : String) = some publishedFixturePost ∧
    (some ("draft" : String)).bind parsePostStatus = some .draft ∧
    .draft ∉ allowedStatusTransitions .published ∧
    patchPostStatus [publishedFixturePost] ("p1" : String) draftPatchBody
        ("2026-02-02" : String) =
      ([publishedFixturePost],
        .badRequest (("Invalid status transition: published -> draft" : String))) := by
  refine ⟨by decide, by decide, by decide, ?_⟩
  have h := patchPostStatus_invalid_transition [publishedFixturePost] ("p1" : String)
    draftPatchBody ("2026-02-02" : String) publishedFixturePost .draft
    (by decide) (by decide) (by decide)
  simpa using h

/-! ## Post creation with idempotency keys (`POST /posts` of the
idempotency-key revision of `createPostsRouter`) -/

/-- The request payload of `POST /posts` after the JS coercions at the top of
the handler (`String(x ?? '')`, array defaulting).  Absent optional fields are
`none`. -/
structure PostPayload where
  customerId : String
  channel : String
  status : Option String
  title : String
  content : String
  images : List String
  tags : List String
  scheduledAt : String
  publishedAt : Option String
  publishedUrl : Option String
  errorMessage : Option String
  retryCount : Nat
  idempotencyKey : Option String
deriving DecidableEq, Repr

/-- `validatePostPayload` of the idempotency-key revision, returning the first
failing check's message.  The array-type and idempotency-key-type checks are
satisfied by construction in this typed model. -/
def validatePostPayload (p : PostPayload) : Option String :=
  if p.customerId = ("" : String) then some ("customerId is required")
  else if ¬ isValidChannel p.channel then some ("channel is invalid")
  else if ¬ isValidStatus (p.status.getD ("draft" : String)) then some ("status is invalid")
  else if p.title = ("" : String) then some ("title is required")
  else if p.content = ("" : String) then some ("content is required")
  else if p.scheduledAt = ("" : String) then some ("scheduledAt is required")
  else none

/-- The `Post` built at the top of the `POST /` handler from a payload, a fresh
UUID and the current clock reading (only meaningful when validation passed, so
the enum parses are defaulted arbitrarily here). -/
def buildPostFromPayload (p : PostPayload) (newId now : String) : Post :=
  { id := newId
    customerId := p.customerId
    channel := (parsePostChannel p.channel).getD .naverBlog
    status := (parsePostStatus (p.status.getD ("draft" : String))).getD .draft
    title := p.title
    content := p.content
    images := p.images
    tags := p.tags
    scheduledAt := p.scheduledAt
    publishedAt := asString p.publishedAt
    publishedUrl := asString p.publishedUrl
    errorMessage := asString p.errorMessage
    retryCount := p.retryCount
    idempotencyKey := asString p.idempotencyKey
    createdAt := now
    updatedAt := now }

/-- Result of the `POST /posts` handler: the updated store, the response, and
whether `triggerAutoIngestForPublishedPost` was invoked for the created row. -/
structure CreatePostOutcome where
  store : List Post
  response : PostsResponse
  ingestTriggered : Bool
deriving DecidableEq, Repr

/-- The `POST /posts` handler of the idempotency-key revision: validate, answer
an existing post for a known `(customer_id, idempotency_key)` pair without any
write, otherwise insert the new row, re-read it and fire the auto-ingest
trigger. -/
def createPost (store : List Post) (payload : PostPayload) (newId now : String) :
    CreatePostOutcome :=
  let post := buildPostFromPayload payload newId now
  match validatePostPayload payload with
  | some err => { store := store, response := .badRequest err, ingestTriggered := false }
  | none =>
    match post.idempotencyKey with
    | some key =>
      match getPostByCustomerAndIdempotencyKey store post.customerId key with
      | some existing =>
        { store := store, response := .okPost (some existing), ingestTriggered := false }
      | none =>
        let store' := store ++ [post]
        { store := store'
          response := .createdPost (getPostById store' post.id)
          ingestTriggered := (getPostById store' post.id).isSome }
    | none =>
      let store' := store ++ [post]
      { store := store'
        response := .createdPost (getPostById store' post.id)
        ingestTriggered := (getPostById store' post.id).isSome }

/-- The post contained in an `okPost`/`createdPost` response, if any. -/
def responsePost : PostsResponse → Option Post
  | .okPost p => p
  | .createdPost p => p
  | _ => none

theorem find?_append_none {α : Type} (l₁ l₂ : List α) (p : α → Bool)
    (h : l₁.find? p = none) : (l₁ ++ l₂).find? p = l₂.find? p := by
  induction l₁ with
  | nil => simp
  | cons a t ih =>
    cases hpa : p a with
    | true => simp [List.find?, hpa] at h
    | false =>
      simp only [List.cons_append, List.find?, hpa] at h ⊢
      exact ih h

theorem countP_eq_zero_of_find?_none {α : Type} (l : List α) (p : α → Bool)
    (h : l.find? p = none) : l.countP p = 0 := by
  rw [List.countP_eq_zero]
  intro a ha
  intro hpa
  have := List.find?_isSome.mpr ⟨a, ha, hpa⟩
  rw [h] at this
  simp at this

/-- C2: submitting the same valid creation payload twice with one idempotency
key stores exactly one post (one matching row, inserted by the first call) and
both calls answer a post with the same id. -/
theorem createPost_idempotent
    (s0 : List Post) (p : PostPayload) (id1 now1 id2 now2 k : String)
    (hvalid : validatePostPayload p = none)
    (hkey : asString p.idempotencyKey = some k)
    (hnone : getPostByCustomerAndIdempotencyKey s0 p.customerId k = none)
    (hfresh : getPostById s0 id1 = none) :
    (createPost s0 p id1 now1).store = s0 ++ [buildPostFromPayload p id1 now1] ∧
    ((responsePost (createPost s0 p id1 now1).response).map Post.id = some id1) ∧
    (createPost (createPost s0 p id1 now1).store p id2 now2).store =
      (createPost s0 p id1 now1).store ∧
    ((responsePost (createPost (createPost s0 p id1 now1).store p id2 now2).response).map
      Post.id = some id1) ∧
    ((createPost (createPost s0 p id1 now1).store p id2 now2).store.countP
      (fun q => q.customerId = p.customerId ∧ q.idempotencyKey = some k)) = 1 := by
  have hpost1key : (buildPostFromPayload p id1 now1).idempotencyKey = some k := hkey
  have hpost1cust : (buildPostFromPayload p id1 now1).customerId = p.customerId := rfl
  have hpost1id : (buildPostFromPayload p id1 now1).id = id1 := rfl
  have hstep1 : createPost s0 p id1 now1 =
      { store := s0 ++ [buildPostFromPayload p id1 now1]
        response := .createdPost (getPostById (s0 ++ [buildPostFromPayload p id1 now1]) id1)
        ingestTriggered :=
          (getPostById (s0 ++ [buildPostFromPayload p id1 now1]) id1).isSome } := by
    unfold createPost
    simp only [hvalid, hpost1key, hnone, hpost1cust, hpost1id]
  have hlook1 : getPostById (s0 ++ [buildPostFromPayload p id1 now1]) id1 =
      some (buildPostFromPayload p id1 now1) := by
    unfold getPostById at hfresh ⊢
    rw [find?_append_none _ _ _ hfresh]
    simp [List.find?, hpost1id]
  have hfind2 : getPostByCustomerAndIdempotencyKey
      (s0 ++ [buildPostFromPayload p id1 now1]) p.customerId k =
      some (buildPostFromPayload p id1 now1) := by
    unfold getPostByCustomerAndIdempotencyKey at hnone ⊢
    rw [find?_append_none _ _ _ hnone]
    simp [List.find?, hpost1key, hpost1cust]
  have hstep2 : createPost (s0 ++ [buildPostFromPayload p id1 now1]) p id2 now2 =
      { store := s0 ++ [buildPostFromPayload p id1 now1]
        response := .okPost (some (buildPostFromPayload p id1 now1))
        ingestTriggered := false } := by
    unfold createPost
    have hkey2 : (buildPostFromPayload p id2 now2).idempotencyKey = some k := hkey
    have hcust2 : (buildPostFromPayload p id2 now2).customerId = p.customerId := rfl
    simp only [hvalid, hkey2, hcust2, hfind2]
  have hcount0 : s0.countP
      (fun q => q.customerId = p.customerId ∧ q.idempotencyKey = some k) = 0 :=
    countP_eq_zero_of_find?_none _ _ hnone
  refine ⟨by rw [hstep1], ?_, ?_, ?_, ?_⟩
  · rw [hstep1]
    simp [responsePost, hlook1, hpost1id]
  · rw [hstep1]
    simp only
    rw [hstep2]
  · rw [hstep1]
    simp only
    rw [hstep2]
    simp [responsePost, hpost1id]
  · rw [hstep1]
    simp only
    rw [hstep2]
    simp only
    rw [List.countP_append, hcount0]
    simp [List.countP, List.countP.go, hpost1key, hpost1cust]

/-- A concrete valid creation payload carrying an idempotency key. -/
def payloadFixture : PostPayload :=
  { customerId := ("c1" : String)
    channel := ("threads" : String)
    status := none
    title := ("Title" : String)
    content := ("Body" : String)
    images := []
    tags := []
    scheduledAt := ("2026-03-01" : String)
    publishedAt := none
    publishedUrl := none
    errorMessage := none
    retryCount := 0
    idempotencyKey := some ("key-1" : String) }

/-- C2 witness: the idempotent-creation theorem applied to a concrete payload
against the empty store. -/
theorem createPost_idempotent_witness :
    validatePostPayload payloadFixture = none ∧
    asString payloadFixture.idempotencyKey = some ("key-1" : String) ∧
    (createPost [] payloadFixture ("a1" : String) ("t1" : String)).store =
      [buildPostFromPayload payloadFixture ("a1" : String) ("t1" : String)] ∧
    ((responsePost (createPost (createPost [] payloadFixture ("a1" : String)
        ("t1" : String)).store payloadFixture ("a2" : String) ("t2" : String)).response).map
      Post.id = some ("a1" : String)) ∧
    ((createPost (createPost [] payloadFixture ("a1" : String) ("t1" : String)).store
        payloadFixture ("a2" : String) ("t2" : String)).store.countP
      (fun q => q.customerId = payloadFixture.customerId ∧
        q.idempotencyKey = some ("key-1" : String))) = 1 := by
  have h := createPost_idempotent [] payloadFixture ("a1" : String) ("t1" : String)
    ("a2" : String) ("t2" : String) ("key-1" : String)
    (by decide) (by decide) (by decide) (by decide)
  exact ⟨by decide, by decide, by simpa using h.1, h.2.2.2.1, h.2.2.2.2⟩

/-- C10: a creation request whose idempotency key is already present for the
customer performs no store write, fires no ingest trigger, and answers the
stored post, discarding the whole new payload. -/
theorem createPost_existing_key_no_write
    (s : List Post) (p : PostPayload) (newId now k : String) (q : Post)
    (hvalid : validatePostPayload p = none)
    (hkey : asString p.idempotencyKey = some k)
    (hfound : getPostByCustomerAndIdempotencyKey s p.customerId k = some q) :
    createPost s p newId now =
      { store := s, response := .okPost (some q), ingestTriggered := false } := by
  unfold createPost
  have hkey' : (buildPostFromPayload p newId now).idempotencyKey = some k := hkey
  have hcust : (buildPostFromPayload p newId now).customerId = p.customerId := rfl
  simp only [hvalid, hkey', hcust, hfound]

/-- A second payload sharing `payloadFixture`'s key but differing in every
content field. -/
def payloadFixtureVariant : PostPayload :=
  { customerId := ("c1" : String)
    channel := ("instagram" : String)
    status := some ("approved" : String)
    title := ("Other title" : String)
    content := ("Other body" : String)
    images := [("img.png" : String)]
    tags := [("tag" : String)]
    scheduledAt := ("2026-04-01" : String)
    publishedAt := none
    publishedUrl := none
    errorMessage := none
    retryCount := 2
    idempotencyKey := some ("key-1" : String) }

/-- C10 witness: replaying the key with a different payload returns the stored
post and leaves the store alone. -/
theorem createPost_existing_key_no_write_witness :
    createPost [buildPostFromPayload payloadFixture ("a1" : String) ("t1" : String)]
        payloadFixtureVariant ("a9" : String) ("t9" : String) =
      { store := [buildPostFromPayload payloadFixture ("a1" : String) ("t1" : String)]
        response := .okPost (some (buildPostFromPayload payloadFixture ("a1" : String)
          ("t1" : String)))
        ingestTriggered := false } := by
  exact createPost_existing_key_no_write
    [buildPostFromPayload payloadFixture ("a1" : String) ("t1" : String)]
    payloadFixtureVariant ("a9" : String) ("t9" : String) ("key-1" : String)
    (buildPostFromPayload payloadFixture ("a1" : String) ("t1" : String))
    (by decide) (by decide) (by decide)

/-! ## Metrics scoring (`apps/server/src/services/metrics/collector.ts`) -/

/-- One engagement snapshot, the `MetricRow` of the collector. -/
structure MetricRow where
  impressions : Nat
  likes : Nat
  comments : Nat
  shares : Nat
  saves : Nat
  clicks : Nat
deriving DecidableEq, Repr

/-- `scoreMetric`: the weighted engagement score. -/
def scoreMetric (metric : MetricRow) : Nat :=
  metric.likes * 1 + metric.comments * 3 + metric.shares * 4 + metric.saves * 2 +
    metric.clicks * 1

/-- The three performance classes. -/
inductive Performance where
  | high
  | medium
  | low
deriving DecidableEq, Repr

/-- `classifyPerformance`: high at score 120, medium at 40, low below. -/
def classifyPerformance (metric : MetricRow) : Performance :=
  if scoreMetric metric ≥ 120 then .high
  else if scoreMetric metric ≥ 40 then .medium
  else .low

/-- A metric consisting of exactly one comment. -/
def oneCommentMetric : MetricRow :=
  { impressions := 0, likes := 0, comments := 1, shares := 0, saves := 0, clicks := 0 }

/-- A metric consisting of exactly one share. -/
def oneShareMetric : MetricRow :=
  { impressions := 0, likes := 0, comments := 0, shares := 1, saves := 0, clicks := 0 }

/-- C4 counterexample: the claim puts the highest weight on comments, but a
single share scores 4 while a single comment scores 3, so shares outweigh
comments in `scoreMetric`. -/
theorem scoreMetric_shares_above_comments :
    scoreMetric oneShareMetric = 4 ∧ scoreMetric oneCommentMetric = 3 ∧
    scoreMetric oneCommentMetric < scoreMetric oneShareMetric := by
  refine ⟨by decide, by decide, by decide⟩

/-- C4 amended: the score is the weighted sum with shares weighted highest
(4), then comments (3), then saves (2), then likes and clicks equally lowest
(1); classification is high exactly when the score is at least 120, medium
exactly when it is in [40, 120), and low exactly when it is below 40. -/
theorem classifyPerformance_spec (m : MetricRow) :
    scoreMetric m =
      m.likes * 1 + m.comments * 3 + m.shares * 4 + m.saves * 2 + m.clicks * 1 ∧
    (classifyPerformance m = .high ↔ 120 ≤ scoreMetric m) ∧
    (classifyPerformance m = .medium ↔ 40 ≤ scoreMetric m ∧ scoreMetric m < 120) ∧
    (classifyPerformance m = .low ↔ scoreMetric m < 40) := by
  refine ⟨rfl, ?_, ?_, ?_⟩ <;> unfold classifyPerformance <;>
    split_ifs with h1 h2 <;> simp_all <;> omega

/-! ## Threads publish adapter (`apps/server/src/services/publishing/threads.ts`,
Graph-API revision of the cited lines) -/

/-- `parseTags` on an already-JSON-decoded string array: keep the non-blank
entries. -/
def parseTags (tags : List String) : List String :=
  tags.filter (fun t => ¬ (String.mk (trimJs t.toList) = ("" : String)))

/-- The three characters that the source file appends when truncating: the
UTF-8 bytes of the ellipsis re-decoded as code page 1252, exactly as stored in
the file. -/
def threadsEllipsis : List Char :=
  [Char.ofNat 0xe2, Char.ofNat 0x20ac, Char.ofNat 0xa6]

/-- `THREADS_TEXT_LIMIT`. -/
def threadsTextLimit : Nat := 500

/-- `truncateText` of the threads adapter: texts beyond the limit are cut to
`limit - 1` characters and the (mojibake) ellipsis is appended. -/
def truncateText (value : List Char) : List Char :=
  if value.length > threadsTextLimit then value.take (threadsTextLimit - 1) ++ threadsEllipsis
  else value

/-- `buildThreadsText`: join the non-blank parts of title, content and the
first eight hashtags with blank lines, then truncate. -/
def buildThreadsText (post : Post) : List Char :=
  let tags := ((parseTags post.tags).map (fun tag =>
      if tag.startsWith ("#" : String) then tag
      else ("#" : String) ++ String.mk (tag.toList.filter (fun c => ¬ isJsWs c)))).take 8
  let tagsJoined := String.intercalate (" " : String) tags
  let parts := ([post.title, post.content, tagsJoined].filter
    (fun part => ¬ (String.mk (trimJs part.toList) = ("" : String))))
  truncateText (String.intercalate ("\n\n" : String) parts).toList

/-- A threads post whose content is 501 characters long. -/
def overflowThreadsPost : Post :=
  { publishedFixturePost with
    channel := .threads
    status := .publishing
    title := ("" : String)
    content := String.mk (List.replicate 501 'a') }

set_option maxRecDepth 4000 in
/-- C9: the adapter's 500-character limit is broken by the source's corrupted
ellipsis literal: a 501-character content yields a 502-character payload text
(499 kept characters plus the three mojibake characters), exceeding
`THREADS_TEXT_LIMIT`. -/
theorem buildThreadsText_overflowThreadsPost_length :
    (buildThreadsText overflowThreadsPost).length = 502 ∧
    threadsTextLimit = 500 ∧ 500 < (buildThreadsText overflowThreadsPost).length := by
  refine ⟨by decide, by decide, by decide⟩

/-- Customer row as read by the threads adapter. -/
structure ThreadsCustomer where
  id : String
  threadsAccount : Option String
deriving DecidableEq, Repr

/-- The environment variables the threads adapter reads. -/
structure ThreadsEnv where
  metaThreadsAccountId : Option String
  metaAccessToken : Option String
deriving DecidableEq, Repr

instance exceptDecEq {e a : Type} [DecidableEq e] [DecidableEq a] :
    DecidableEq (Except e a) := fun x y =>
  match x, y with
  | .ok u, .ok v =>
    if h : u = v then isTrue (by rw [h]) else isFalse (by simp [h])
  | .ok _, .error _ => isFalse (by simp)
  | .error _, .ok _ => isFalse (by simp)
  | .error u, .error v =>
    if h : u = v then isTrue (by rw [h]) else isFalse (by simp [h])

/-- Outcomes of the two remote Graph API calls, already collapsed to the id
extracted on success or the error message thrown on a non-ok response or a
missing id. -/
structure ThreadsRemote where
  createOutcome : Except String String
  publishOutcome : Except String String
deriving DecidableEq, Repr

/-- The slice of the database the threads adapter touches. -/
structure ThreadsDb where
  posts : List Post
  customers : List ThreadsCustomer
deriving DecidableEq, Repr

/-- `ThreadsPublishResult`. -/
structure ThreadsPublishResult where
  postId : String
  creationId : String
  mediaId : String
  publishedUrl : String
  publishedAt : String
deriving DecidableEq, Repr

/-- `getMetaAccessToken`: the token or a thrown configuration error. -/
def getMetaAccessToken (env : ThreadsEnv) : Except String String :=
  match env.metaAccessToken with
  | some t => .ok t
  | none => .error ("META_ACCESS_TOKEN is not configured")

/-- `resolveThreadsAccountId`: configured id first, then the customer's, else a
thrown configuration error. -/
def resolveThreadsAccountId (env : ThreadsEnv) (customerThreadsAccount : Option String) :
    Except String String :=
  match env.metaThreadsAccountId with
  | some c => .ok c
  | none =>
    match customerThreadsAccount with
    | some a => .ok a
    | none =>
      .error ("Threads account id is not configured (META_THREADS_ACCOUNT_ID/customer.threads_account)")

/-- `buildThreadsUrl`. -/
def buildThreadsUrl (mediaId : String) : String :=
  ("https://www.threads.net/t/" : String) ++ mediaId

/-- `markPostFailed`: status `failed`, error message and `updated_at` set. -/
def markPostFailed (posts : List Post) (postId errorMessage now : String) : List Post :=
  posts.map (fun p =>
    if p.id = postId then
      { p with status := .failed, errorMessage := some errorMessage, updatedAt := now }
    else p)

/-- `markPostPublished`: status `published`, url and timestamps set, error
message cleared. -/
def markPostPublished (posts : List Post) (postId publishedUrl publishedAt : String) :
    List Post :=
  posts.map (fun p =>
    if p.id = postId then
      { p with
        status := .published
        publishedUrl := some publishedUrl
        publishedAt := some publishedAt
        updatedAt := publishedAt
        errorMessage := none }
    else p)

/-- `createThreadsMediaContainer`: requires the access token, then performs the
remote container-creation call. -/
def createThreadsMediaContainer (env : ThreadsEnv) (remote : ThreadsRemote)
    (_threadsAccountId _text : String) : Except String String :=
  match getMetaAccessToken env with
  | .error e => .error e
  | .ok _ => remote.createOutcome

/-- `publishThreadsContainer`: requires the access token, then performs the
remote publish call. -/
def publishThreadsContainer (env : ThreadsEnv) (remote : ThreadsRemote)
    (_threadsAccountId _creationId : String) : Except String String :=
  match getMetaAccessToken env with
  | .error e => .error e
  | .ok _ => remote.publishOutcome

/-- `publishToThreads`: load the post, check its channel, resolve the account
id, then run the two-phase publish inside the try block whose catch marks the
post failed.  The checks before the try block surface their error with no
database write. -/
def publishToThreads (env : ThreadsEnv) (remote : ThreadsRemote) (db : ThreadsDb)
    (postId now : String) : ThreadsDb × Except String ThreadsPublishResult :=
  match getPostById db.posts postId with
  | none => (db, .error (("post not found: " : String) ++ postId))
  | some post =>
    if post.channel ≠ PostChannel.threads then
      (db, .error (("post " : String) ++ postId ++ (" is not threads channel" : String)))
    else
      let customerThreadsAccount :=
        (db.customers.find? (fun c => c.id = post.customerId)).bind ThreadsCustomer.threadsAccount
      match resolveThreadsAccountId env customerThreadsAccount with
      | .error e => (db, .error e)
      | .ok threadsAccountId =>
        let text := String.mk (buildThreadsText post)
        match createThreadsMediaContainer env remote threadsAccountId text with
        | .error e => ({ db with posts := markPostFailed db.posts post.id e now }, .error e)
        | .ok creationId =>
          match publishThreadsContainer env remote threadsAccountId creationId with
          | .error e => ({ db with posts := markPostFailed db.posts post.id e now }, .error e)
          | .ok mediaId =>
            let publishedUrl := buildThreadsUrl mediaId
            ({ db with posts := markPostPublished db.posts post.id publishedUrl now },
              .ok { postId := post.id, creationId := creationId, mediaId := mediaId,
                    publishedUrl := publishedUrl, publishedAt := now })

/-- An approved instagram-channel post, for exercising the channel-mismatch
path of the threads adapter. -/
def instagramPostFixture : Post :=
  { publishedFixturePost with
    id := ("p2" : String)
    channel := .instagram
    status := .approved }

/-- The database slice holding only `instagramPostFixture`. -/
def mismatchDbFixture : ThreadsDb :=
  { posts := [instagramPostFixture], customers := [] }

/-- A remote whose two calls would both fail (they are never reached in the
counterexample). -/
def failingRemoteFixture : ThreadsRemote :=
  { createOutcome := .error ("unreached" : String)
    publishOutcome := .error ("unreached" : String) }

/-- An environment with no account id and no access token. -/
def emptyThreadsEnv : ThreadsEnv :=
  { metaThreadsAccountId := none, metaAccessToken := none }

/-- C7 counterexample: publishing a non-threads post through the threads
adapter surfaces the channel-mismatch error but performs no write at all — the
post stays `approved` instead of being marked `failed`, refuting the claim
that configuration errors mark the Post failed. -/
theorem publishToThreads_mismatch_not_marked_failed :
    publishToThreads emptyThreadsEnv failingRemoteFixture mismatchDbFixture
        ("p2" : String) ("t9" : String) =
      (mismatchDbFixture, .error (("post p2 is not threads channel" : String))) ∧
    (getPostById mismatchDbFixture.posts ("p2" : String)).map Post.status =
      some .approved := by
  refine ⟨by decide, by decide⟩

/-- The configuration error message of `getMetaAccessToken`. -/
def metaTokenMissingMsg : String := ("META_ACCESS_TOKEN is not configured" : String)

/-- C7 amended: configuration failures detected before the try block (channel
mismatch, unresolvable account id) surface their error and leave the database
untouched, while a missing access token — first read inside the try block —
surfaces its error and marks the post failed. -/
theorem publishToThreads_config_error_behavior
    (env : ThreadsEnv) (remote : ThreadsRemote) (db : ThreadsDb)
    (postId now : String) (post : Post) (e acct : String)
    (hfind : getPostById db.posts postId = some post) :
    (post.channel ≠ PostChannel.threads →
      publishToThreads env remote db postId now =
        (db, .error (("post " : String) ++ postId ++ (" is not threads channel" : String)))) ∧
    (post.channel = PostChannel.threads →
      resolveThreadsAccountId env
          ((db.customers.find? (fun c => c.id = post.customerId)).bind
            ThreadsCustomer.threadsAccount) = .error e →
      publishToThreads env remote db postId now = (db, .error e)) ∧
    (post.channel = PostChannel.threads →
      resolveThreadsAccountId env
          ((db.customers.find? (fun c => c.id = post.customerId)).bind
            ThreadsCustomer.threadsAccount) = .ok acct →
      env.metaAccessToken = none →
      publishToThreads env remote db postId now =
        ({ db with posts := markPostFailed db.posts post.id metaTokenMissingMsg now },
          .error metaTokenMissingMsg)) := by
  refine ⟨?_, ?_, ?_⟩
  · intro hch
    unfold publishToThreads
    simp only [hfind, hch, ne_eq, not_false_eq_true, if_true, ite_true]
  · intro hch hres
    unfold publishToThreads
    simp only [hfind, hch, ne_eq, not_true_eq_false, if_false, ite_false, hres]
  · intro hch hres htok
    unfold publishToThreads
    simp only [hfind, hch, ne_eq, not_true_eq_false, if_false, ite_false, hres,
      createThreadsMediaContainer, getMetaAccessToken, htok]
    rfl

/-- A publishing threads-channel post. -/
def threadsPostFixture : Post :=
  { publishedFixturePost with
    id := ("p3" : String)
    channel := .threads
    status := .publishing }

/-- The database slice holding only `threadsPostFixture`. -/
def threadsDbFixture : ThreadsDb :=
  { posts := [threadsPostFixture], customers := [] }

/-- An environment with a configured account id but no access token. -/
def accountOnlyThreadsEnv : ThreadsEnv :=
  { metaThreadsAccountId := some ("123" : String), metaAccessToken := none }

/-- C7 witness: the amended behavior at concrete inputs — a channel mismatch
leaves the database untouched, and a missing access token marks the post
failed. -/
theorem publishToThreads_config_error_behavior_witness :
    publishToThreads emptyThreadsEnv failingRemoteFixture mismatchDbFixture
        ("p2" : String) ("t9" : String) =
      (mismatchDbFixture, .error (("post p2 is not threads channel" : String))) ∧
    publishToThreads accountOnlyThreadsEnv failingRemoteFixture threadsDbFixture
        ("p3" : String) ("t9" : String) =
      ({ threadsDbFixture with
          posts := markPostFailed threadsDbFixture.posts ("p3" : String)
                     metaTokenMissingMsg ("t9" : String) },
        .error metaTokenMissingMsg) := by
  constructor
  · exact (publishToThreads_config_error_behavior emptyThreadsEnv failingRemoteFixture
      mismatchDbFixture ("p2" : String) ("t9" : String) instagramPostFixture
      ("e" : String) ("123" : String) (by decide)).1 (by decide)
  · exact (publishToThreads_config_error_behavior accountOnlyThreadsEnv failingRemoteFixture
      threadsDbFixture ("p3" : String) ("t9" : String) threadsPostFixture
      ("e" : String) ("123" : String) (by decide)).2.2 (by decide) (by decide) (by decide)

/-! ## Retrieval-index ingest (`services/content/ingest.ts`, the unnamed
source part defining `ingestTextSourceToRag`) -/

/-- `text.replace(/\r\n/g, '\n')`. -/
def replaceCrlf : List Char → List Char
  | [] => []
  | '\r' :: '\n' :: t => '\n' :: replaceCrlf t
  | c :: t => c :: replaceCrlf t

/-- `cleaned.split(/\n{2,}/)`: split at each maximal run of two or more
newlines.  `fuel` bounds the recursion; it is instantiated with the input
length. -/
def splitOnBlankLines (fuel : Nat) (acc : List Char) (s : List Char) : List (List Char) :=
  match fuel, s with
  | _, [] => [acc.reverse]
  | fuel + 1, '\n' :: '\n' :: t =>
    acc.reverse :: splitOnBlankLines fuel [] (t.dropWhile (fun c => c = '\n'))
  | fuel + 1, c :: t => splitOnBlankLines fuel (c :: acc) t
  | 0, rest => [acc.reverse ++ rest]

/-- The hard-split loop: `for (index = 0; index < p.length; index += maxLength)
chunks.push(p.slice(index, index + maxLength))`. -/
def hardSplitChunks (fuel maxLength : Nat) (p : List Char) : List (List Char) :=
  match fuel with
  | 0 => []
  | fuel + 1 =>
    if p = [] then [] else p.take maxLength :: hardSplitChunks fuel maxLength (p.drop maxLength)

/-- The accumulator of the greedy paragraph-packing loop of `chunkText`. -/
structure ChunkState where
  chunks : List (List Char)
  current : List Char
deriving DecidableEq, Repr

/-- One iteration of the packing loop of `chunkText`. -/
def chunkStep (maxLength : Nat) (st : ChunkState) (paragraph : List Char) : ChunkState :=
  let next := if st.current = [] then paragraph else st.current ++ '\n' :: '\n' :: paragraph
  if next.length ≤ maxLength then { st with current := next }
  else
    let chunks' := if st.current = [] then st.chunks else st.chunks ++ [st.current]
    if paragraph.length ≤ maxLength then { chunks := chunks', current := paragraph }
    else
      { chunks := chunks' ++ hardSplitChunks paragraph.length maxLength paragraph
        current := [] }

/-- `CHUNK_MAX_LENGTH`. -/
def chunkMaxLength : Nat := 500

/-- `chunkText`: normalize line endings, trim, split into paragraphs at blank
lines, greedily pack paragraphs up to `maxLength`, hard-splitting oversized
paragraphs; empty input yields no chunks. -/
def chunkText (text : List Char) (maxLength : Nat) : List (List Char) :=
  let cleaned := trimJs (replaceCrlf text)
  if cleaned = [] then []
  else
    let paragraphs :=
      ((splitOnBlankLines cleaned.length [] cleaned).map trimJs).filter (fun p => ¬ p = [])
    let st := paragraphs.foldl (chunkStep maxLength) { chunks := [], current := [] }
    if st.current = [] then st.chunks else st.chunks ++ [st.current]

/-- `RagSourceType` of the ingest module. -/
inductive IngestSourceType where
  | pastContent
  | projectDoc
  | profile
deriving DecidableEq, Repr

/-- The behavior of the external embedding service during one ingest:
`noKey` — `OPENAI_API_KEY` unset; `failing` — the HTTP request not ok (the
message is the response detail); `ok` — a response whose `data[i].embedding`
entries are the given serialized vectors (`none` where absent). -/
inductive EmbedService where
  | noKey
  | failing (detail : String)
  | ok (data : List (Option String))
deriving DecidableEq, Repr

/-- `embedTexts`: empty input short-circuits to `[]`; a missing key yields all
`null`s; a failing request throws; otherwise entry `i` is
`data[i]?.embedding ?? null`. -/
def embedTexts (svc : EmbedService) (texts : List String) :
    Except String (List (Option String)) :=
  if texts.isEmpty then .ok []
  else
    match svc with
    | .noKey => .ok (texts.map (fun _ => none))
    | .failing detail => .error (("Embedding request failed: " : String) ++ detail)
    | .ok data => .ok ((List.range texts.length).map (fun i => (data.get? i).bind id))

/-- A row of the `content_vectors` table.  The embedding is kept as the
serialized vector string the code hands to the database (`null` when the
service produced none). -/
structure VecRow where
  id : String
  customerId : String
  sourceType : IngestSourceType
  category : String
  channel : Option String
  sourceId : String
  chunkIndex : Nat
  textContent : String
  embedding : Option String
  metadata : List (String × String)
  createdAt : String
  updatedAt : String
deriving DecidableEq, Repr

/-- The natural-key predicate of the `ON CONFLICT` target
`(customer_id, source_type, source_id, chunk_index)`. -/
def vecKeyMatch (cust : String) (srcType : IngestSourceType) (sid : String) (i : Nat)
    (r : VecRow) : Bool :=
  decide (r.customerId = cust ∧ r.sourceType = srcType ∧ r.sourceId = sid ∧ r.chunkIndex = i)

/-- The `DO UPDATE SET` clause of `upsertVector`: content, embedding, metadata,
category, channel and `updated_at` are overwritten; id and `created_at` stay. -/
def updateVecRow (r row : VecRow) : VecRow :=
  { r with
    textContent := row.textContent
    embedding := row.embedding
    metadata := row.metadata
    category := row.category
    channel := row.channel
    updatedAt := row.updatedAt }

/-- `upsertVector`: insert, or update in place on a natural-key conflict. -/
def upsertVector (store : List VecRow) (row : VecRow) : List VecRow :=
  if store.any (vecKeyMatch row.customerId row.sourceType row.sourceId row.chunkIndex) then
    store.map (fun r =>
      if vecKeyMatch row.customerId row.sourceType row.sourceId row.chunkIndex r then
        updateVecRow r row
      else r)
  else store ++ [row]

/-- `deleteOrphanChunks`: drop this source's rows at `chunk_index >= chunkCount`. -/
def deleteOrphanChunks (store : List VecRow) (cust : String) (srcType : IngestSourceType)
    (sid : String) (chunkCount : Nat) : List VecRow :=
  store.filter (fun r =>
    ¬ (r.customerId = cust ∧ r.sourceType = srcType ∧ r.sourceId = sid ∧
      chunkCount ≤ r.chunkIndex))

/-- The source argument of `ingestTextSourceToRag`. -/
structure IngestSource where
  customerId : String
  sourceType : IngestSourceType
  sourceId : String
  category : String
  channel : Option String
  textContent : String
  metadata : List (String × String)
deriving DecidableEq, Repr

/-- The row upserted for chunk `i` of an ingest (`ids` supplies the fresh
UUIDs, `now` the clock reading). -/
def ingestRow (src : IngestSource) (ids : Nat → String) (now : String)
    (chunks : List (List Char)) (embeddings : List (Option String)) (i : Nat) : VecRow :=
  { id := ids i
    customerId := src.customerId
    sourceType := src.sourceType
    category := src.category
    channel := src.channel
    sourceId := src.sourceId
    chunkIndex := i
    textContent := String.mk (chunks.getD i [])
    embedding := embeddings.getD i none
    metadata := src.metadata ++ [(("ingestedAt" : String), now)]
    createdAt := now
    updatedAt := now }

/-- `ingestTextSourceToRag`: chunk the text (no-op on zero chunks), embed all
chunks in one request, upsert every chunk by natural key, then delete this
source's rows beyond the new chunk count.  A failing embed request propagates
as an error. -/
def ingestTextSourceToRag (svc : EmbedService) (store : List VecRow) (src : IngestSource)
    (ids : Nat → String) (now : String) : Except String (List VecRow × Bool) :=
  let chunks := chunkText src.textContent.toList chunkMaxLength
  if chunks = [] then .ok (store, false)
  else
    match embedTexts svc (chunks.map String.mk) with
    | .error e => .error e
    | .ok embeddings =>
      let store' := (List.range chunks.length).foldl
        (fun st i => upsertVector st (ingestRow src ids now chunks embeddings i)) store
      .ok (deleteOrphanChunks store' src.customerId src.sourceType src.sourceId
        chunks.length, true)

/-- `SELECT` of one chunk row by natural key. -/
def lookupChunk (store : List VecRow) (cust : String) (srcType : IngestSourceType)
    (sid : String) (i : Nat) : Option VecRow :=
  store.find? (vecKeyMatch cust srcType sid i)

theorem vecKeyMatch_updateVecRow (cust : String) (srcType : IngestSourceType) (sid : String)
    (i : Nat) (r row : VecRow) :
    vecKeyMatch cust srcType sid i (updateVecRow r row) = vecKeyMatch cust srcType sid i r :=
  rfl

theorem find?_map_congr {α : Type} (l : List α) (f : α → α) (p : α → Bool)
    (h : ∀ x, p (f x) = p x) :
    (l.map f).find? p = (l.find? p).map f := by
  induction l with
  | nil => rfl
  | cons a t ih =>
    simp only [List.map_cons, List.find?]
    rw [h a]
    cases hpa : p a
    · simpa using ih
    · rfl

theorem find?_eq_none_of_any_eq_false {α : Type} (l : List α) (p : α → Bool)
    (h : l.any p = false) : l.find? p = none := by
  rw [List.find?_eq_none]
  intro x hx hpx
  have : l.any p = true := List.any_eq_true.mpr ⟨x, hx, hpx⟩
  rw [h] at this
  cases this

theorem find?_append_some {α : Type} (l₁ l₂ : List α) (p : α → Bool) (x : α)
    (h : l₁.find? p = some x) : (l₁ ++ l₂).find? p = some x := by
  induction l₁ with
  | nil => simp [List.find?] at h
  | cons a t ih =>
    cases hpa : p a with
    | true =>
      simp only [List.find?, hpa] at h
      simp only [List.cons_append, List.find?, hpa]
      exact h
    | false =>
      simp only [List.find?, hpa] at h
      simp only [List.cons_append, List.find?, hpa]
      exact ih h

/-- Looking up the upserted key yields the upserted content. -/
theorem upsert_lookup_self (store : List VecRow) (row : VecRow) :
    ∃ r, lookupChunk (upsertVector store row) row.customerId row.sourceType row.sourceId
        row.chunkIndex = some r ∧
      r.textContent = row.textContent ∧ r.embedding = row.embedding := by
  unfold upsertVector lookupChunk
  cases hany : store.any (vecKeyMatch row.customerId row.sourceType row.sourceId row.chunkIndex) with
  | true =>
    simp only [hany, if_true]
    rw [find?_map_congr store _
      (vecKeyMatch row.customerId row.sourceType row.sourceId row.chunkIndex)
      (fun r => by
        by_cases hk : vecKeyMatch row.customerId row.sourceType row.sourceId row.chunkIndex r =
            true
        · simp [hk, vecKeyMatch_updateVecRow]
        · simp [hk])]
    obtain ⟨q, hq, hpq⟩ := List.any_eq_true.mp hany
    obtain ⟨x, hx⟩ := Option.isSome_iff_exists.mp
      (List.find?_isSome.mpr ⟨q, hq, hpq⟩)
    rw [hx]
    have hkx := List.find?_some hx
    refine ⟨updateVecRow x row, by simp [hkx], rfl, rfl⟩
  | false =>
    simp only [hany, Bool.false_eq_true, if_false]
    have hnone : store.find?
        (vecKeyMatch row.customerId row.sourceType row.sourceId row.chunkIndex) = none :=
      find?_eq_none_of_any_eq_false _ _ hany
    rw [find?_append_none _ _ _ hnone]
    have hself : vecKeyMatch row.customerId row.sourceType row.sourceId row.chunkIndex row =
        true := by
      simp [vecKeyMatch]
    simp [List.find?, hself]

/-- Looking up any other key is unaffected by an upsert. -/
theorem upsert_lookup_other (store : List VecRow) (row : VecRow) (cust : String)
    (srcType : IngestSourceType) (sid : String) (i : Nat)
    (hdiff : ¬ (row.customerId = cust ∧ row.sourceType = srcType ∧ row.sourceId = sid ∧
      row.chunkIndex = i)) :
    lookupChunk (upsertVector store row) cust srcType sid i =
      lookupChunk store cust srcType sid i := by
  unfold upsertVector lookupChunk
  cases hany : store.any (vecKeyMatch row.customerId row.sourceType row.sourceId row.chunkIndex) with
  | true =>
    simp only [hany, if_true]
    rw [find?_map_congr store _ (vecKeyMatch cust srcType sid i)
      (fun r => by
        by_cases hk : vecKeyMatch row.customerId row.sourceType row.sourceId row.chunkIndex r =
            true
        · simp [hk, vecKeyMatch_updateVecRow]
        · simp [hk])]
    cases hfind : store.find? (vecKeyMatch cust srcType sid i) with
    | none => simp
    | some q =>
      have hq := List.find?_some hfind
      have hqk : q.customerId = cust ∧ q.sourceType = srcType ∧ q.sourceId = sid ∧
          q.chunkIndex = i := by
        simpa [vecKeyMatch] using hq
      have hnk : vecKeyMatch row.customerId row.sourceType row.sourceId row.chunkIndex q =
          false := by
        by_contra hcontra
        have htrue : vecKeyMatch row.customerId row.sourceType row.sourceId row.chunkIndex q =
            true := by
          cases hv : vecKeyMatch row.customerId row.sourceType row.sourceId row.chunkIndex q
          · exact absurd hv hcontra
          · rfl
        have hq2 : q.customerId = row.customerId ∧ q.sourceType = row.sourceType ∧
            q.sourceId = row.sourceId ∧ q.chunkIndex = row.chunkIndex := by
          simpa [vecKeyMatch] using htrue
        exact hdiff ⟨by rw [← hq2.1, hqk.1], by rw [← hq2.2.1, hqk.2.1],
          by rw [← hq2.2.2.1, hqk.2.2.1], by rw [← hq2.2.2.2, hqk.2.2.2]⟩
      simp [hnk]
  | false =>
    simp only [hany, Bool.false_eq_true, if_false]
    cases hfind : store.find? (vecKeyMatch cust srcType sid i) with
    | some q => exact find?_append_some _ _ _ _ hfind
    | none =>
      rw [find?_append_none _ _ _ hfind]
      have hrow : vecKeyMatch cust srcType sid i row = false := by
        cases hv : vecKeyMatch cust srcType sid i row
        · rfl
        · exfalso
          have : row.customerId = cust ∧ row.sourceType = srcType ∧ row.sourceId = sid ∧
              row.chunkIndex = i := by
            simpa [vecKeyMatch] using hv
          exact hdiff this
      simp [List.find?, hrow]

/-- An upsert whose key is already present keeps the store length. -/
theorem upsert_length_of_present (store : List VecRow) (row : VecRow)
    (h : store.any (vecKeyMatch row.customerId row.sourceType row.sourceId row.chunkIndex) =
      true) :
    (upsertVector store row).length = store.length := by
  unfold upsertVector
  simp [h]

/-- Presence of a key survives an upsert. -/
theorem upsert_preserves_present (store : List VecRow) (row : VecRow) (cust : String)
    (srcType : IngestSourceType) (sid : String) (i : Nat)
    (h : (lookupChunk store cust srcType sid i).isSome = true) :
    (lookupChunk (upsertVector store row) cust srcType sid i).isSome = true := by
  by_cases hsame : row.customerId = cust ∧ row.sourceType = srcType ∧ row.sourceId = sid ∧
      row.chunkIndex = i
  · obtain ⟨r, hr, -, -⟩ := upsert_lookup_self store row
    rw [hsame.1, hsame.2.1, hsame.2.2.1, hsame.2.2.2] at hr
    rw [hr]
    rfl
  · rw [upsert_lookup_other store row cust srcType sid i hsame]
    exact h

theorem any_eq_isSome_find? {α : Type} (l : List α) (p : α → Bool) :
    l.any p = (l.find? p).isSome := by
  induction l with
  | nil => rfl
  | cons a t ih =>
    simp only [List.any_cons, List.find?]
    cases hpa : p a
    · simpa using ih
    · rfl

/-- The upsert fold of `ingestTextSourceToRag` over the first `n` chunk
indices. -/
def foldUpserts (store : List VecRow) (src : IngestSource) (ids : Nat → String)
    (now : String) (chunks : List (List Char)) (embeddings : List (Option String))
    (n : Nat) : List VecRow :=
  (List.range n).foldl
    (fun st i => upsertVector st (ingestRow src ids now chunks embeddings i)) store

theorem foldUpserts_succ (store : List VecRow) (src : IngestSource) (ids : Nat → String)
    (now : String) (chunks : List (List Char)) (embeddings : List (Option String)) (n : Nat) :
    foldUpserts store src ids now chunks embeddings (n + 1) =
      upsertVector (foldUpserts store src ids now chunks embeddings n)
        (ingestRow src ids now chunks embeddings n) := by
  unfold foldUpserts
  rw [List.range_succ, List.foldl_append]
  rfl

/-- After the fold, every index below `n` holds the freshly ingested content. -/
theorem foldUpserts_lookup_lt (store : List VecRow) (src : IngestSource) (ids : Nat → String)
    (now : String) (chunks : List (List Char)) (embeddings : List (Option String)) :
    ∀ n i, i < n →
      ∃ r, lookupChunk (foldUpserts store src ids now chunks embeddings n)
          src.customerId src.sourceType src.sourceId i = some r ∧
        r.textContent = String.mk (chunks.getD i []) ∧
        r.embedding = embeddings.getD i none := by
  intro n
  induction n with
  | zero => intro i hi; omega
  | succ n ih =>
    intro i hi
    rw [foldUpserts_succ]
    by_cases hin : i = n
    · subst hin
      exact upsert_lookup_self _ _
    · have hlt : i < n := by omega
      have hdiff : ¬ ((ingestRow src ids now chunks embeddings n).customerId =
          src.customerId ∧
          (ingestRow src ids now chunks embeddings n).sourceType = src.sourceType ∧
          (ingestRow src ids now chunks embeddings n).sourceId = src.sourceId ∧
          (ingestRow src ids now chunks embeddings n).chunkIndex = i) := by
        intro hcontra
        exact hin (by simpa [ingestRow] using hcontra.2.2.2.symm)
      rw [upsert_lookup_other _ _ _ _ _ _ hdiff]
      exact ih i hlt

/-- The fold does not touch this source's indices at or beyond `n`. -/
theorem foldUpserts_lookup_ge (store : List VecRow) (src : IngestSource) (ids : Nat → String)
    (now : String) (chunks : List (List Char)) (embeddings : List (Option String)) :
    ∀ n i, n ≤ i →
      lookupChunk (foldUpserts store src ids now chunks embeddings n)
          src.customerId src.sourceType src.sourceId i =
        lookupChunk store src.customerId src.sourceType src.sourceId i := by
  intro n
  induction n with
  | zero => intro i _; rfl
  | succ n ih =>
    intro i hi
    rw [foldUpserts_succ]
    have hdiff : ¬ ((ingestRow src ids now chunks embeddings n).customerId =
        src.customerId ∧
        (ingestRow src ids now chunks embeddings n).sourceType = src.sourceType ∧
        (ingestRow src ids now chunks embeddings n).sourceId = src.sourceId ∧
        (ingestRow src ids now chunks embeddings n).chunkIndex = i) := by
      intro hcontra
      have : n = i := by simpa [ingestRow] using hcontra.2.2.2
      omega
    rw [upsert_lookup_other _ _ _ _ _ _ hdiff]
    exact ih i (by omega)

/-- Presence of any key survives the fold. -/
theorem foldUpserts_preserves_present (store : List VecRow) (src : IngestSource)
    (ids : Nat → String) (now : String) (chunks : List (List Char))
    (embeddings : List (Option String)) (cust : String) (srcType : IngestSourceType)
    (sid : String) (i : Nat)
    (h : (lookupChunk store cust srcType sid i).isSome = true) :
    ∀ n, (lookupChunk (foldUpserts store src ids now chunks embeddings n)
      cust srcType sid i).isSome = true := by
  intro n
  induction n with
  | zero => exact h
  | succ n ih =>
    rw [foldUpserts_succ]
    exact upsert_preserves_present _ _ _ _ _ _ ih

/-- When every upserted key is already present, the fold keeps the length. -/
theorem foldUpserts_length (store : List VecRow) (src : IngestSource) (ids : Nat → String)
    (now : String) (chunks : List (List Char)) (embeddings : List (Option String)) :
    ∀ n, (∀ i, i < n →
        (lookupChunk store src.customerId src.sourceType src.sourceId i).isSome = true) →
      (foldUpserts store src ids now chunks embeddings n).length = store.length := by
  intro n
  induction n with
  | zero => intro _; rfl
  | succ n ih =>
    intro hpres
    rw [foldUpserts_succ]
    have hpresn : (lookupChunk (foldUpserts store src ids now chunks embeddings n)
        src.customerId src.sourceType src.sourceId n).isSome = true :=
      foldUpserts_preserves_present _ _ _ _ _ _ _ _ _ _ (hpres n (by omega)) n
    have hany : (foldUpserts store src ids now chunks embeddings n).any
        (vecKeyMatch (ingestRow src ids now chunks embeddings n).customerId
          (ingestRow src ids now chunks embeddings n).sourceType
          (ingestRow src ids now chunks embeddings n).sourceId
          (ingestRow src ids now chunks embeddings n).chunkIndex) = true := by
      rw [any_eq_isSome_find?]
      exact hpresn
    rw [upsert_length_of_present _ _ hany]
    exact ih (fun i hi => hpres i (by omega))

theorem find?_filter_none {α : Type} (l : List α) (p q : α → Bool)
    (h : ∀ x, p x = true → q x = false) : (l.filter q).find? p = none := by
  induction l with
  | nil => rfl
  | cons a t ih =>
    cases hq : q a with
    | true =>
      rw [List.filter_cons_of_pos hq]
      cases hp : p a with
      | true => rw [h a hp] at hq; cases hq
      | false =>
        simp only [List.find?, hp]
        exact ih
    | false =>
      rw [List.filter_cons_of_neg (by simp [hq])]
      exact ih

theorem find?_filter_keep {α : Type} (l : List α) (p q : α → Bool)
    (h : ∀ x, p x = true → q x = true) : (l.filter q).find? p = l.find? p := by
  induction l with
  | nil => rfl
  | cons a t ih =>
    cases hq : q a with
    | true =>
      rw [List.filter_cons_of_pos hq]
      simp only [List.find?]
      cases hp : p a
      · exact ih
      · rfl
    | false =>
      rw [List.filter_cons_of_neg (by simp [hq])]
      have hp : p a = false := by
        cases hpv : p a
        · rfl
        · rw [h a hpv] at hq; cases hq
      simp only [List.find?, hp]
      exact ih

/-- After `deleteOrphanChunks`, this source has no rows at index `>= n`. -/
theorem deleteOrphan_lookup_ge (store : List VecRow) (cust : String)
    (srcType : IngestSourceType) (sid : String) (n i : Nat) (hi : n ≤ i) :
    lookupChunk (deleteOrphanChunks store cust srcType sid n) cust srcType sid i = none := by
  unfold deleteOrphanChunks lookupChunk
  refine find?_filter_none _ _ _ ?_
  intro x hx
  have hxk : x.customerId = cust ∧ x.sourceType = srcType ∧ x.sourceId = sid ∧
      x.chunkIndex = i := by simpa [vecKeyMatch] using hx
  simp [hxk.1, hxk.2.1, hxk.2.2.1, hxk.2.2.2, hi]

/-- `deleteOrphanChunks` leaves this source's rows below `n` alone. -/
theorem deleteOrphan_lookup_lt (store : List VecRow) (cust : String)
    (srcType : IngestSourceType) (sid : String) (n i : Nat) (hi : i < n) :
    lookupChunk (deleteOrphanChunks store cust srcType sid n) cust srcType sid i =
      lookupChunk store cust srcType sid i := by
  unfold deleteOrphanChunks lookupChunk
  refine find?_filter_keep _ _ _ ?_
  intro x hx
  have hxk : x.customerId = cust ∧ x.sourceType = srcType ∧ x.sourceId = sid ∧
      x.chunkIndex = i := by simpa [vecKeyMatch] using hx
  simp [hxk.2.2.2]
  omega

/-- `deleteOrphanChunks` is the identity when the source has no rows at
index `>= n`. -/
theorem deleteOrphan_eq_self (store : List VecRow) (cust : String)
    (srcType : IngestSourceType) (sid : String) (n : Nat)
    (h : ∀ i, n ≤ i → lookupChunk store cust srcType sid i = none) :
    deleteOrphanChunks store cust srcType sid n = store := by
  unfold deleteOrphanChunks
  rw [List.filter_eq_self]
  intro r hr
  by_contra hkeep
  have hcond : r.customerId = cust ∧ r.sourceType = srcType ∧ r.sourceId = sid ∧
      n ≤ r.chunkIndex := by
    by_contra hc
    exact hkeep (by simp only [decide_eq_true_eq]; exact hc)
  have hk : vecKeyMatch cust srcType sid r.chunkIndex r = true := by
    simp [vecKeyMatch, hcond.1, hcond.2.1, hcond.2.2.1]
  have hsome : (lookupChunk store cust srcType sid r.chunkIndex).isSome = true := by
    unfold lookupChunk
    exact List.find?_isSome.mpr ⟨r, hr, hk⟩
  rw [h r.chunkIndex hcond.2.2.2] at hsome
  cases hsome

/-- A successful chunked-and-embedded ingest is the upsert fold followed by
the orphan deletion. -/
theorem ingest_eq_of_ok (svc : EmbedService) (store : List VecRow) (src : IngestSource)
    (ids : Nat → String) (now : String) (embs : List (Option String))
    (hne : ¬ chunkText src.textContent.toList chunkMaxLength = [])
    (hemb : embedTexts svc
      ((chunkText src.textContent.toList chunkMaxLength).map String.mk) = .ok embs) :
    ingestTextSourceToRag svc store src ids now =
      .ok (deleteOrphanChunks
        (foldUpserts store src ids now (chunkText src.textContent.toList chunkMaxLength)
          embs (chunkText src.textContent.toList chunkMaxLength).length)
        src.customerId src.sourceType src.sourceId
        (chunkText src.textContent.toList chunkMaxLength).length, true) := by
  unfold ingestTextSourceToRag foldUpserts
  simp only []
  rw [if_neg hne, hemb]

/-- C5 amended: re-ingesting a source whose text still yields at least one
chunk is idempotent and shrink-safe.  The first ingest stores exactly the
chunk contents at indices below the chunk count and removes every row of the
source at an index at or beyond it; an identical second ingest adds or removes
no row and leaves every index with the same text and embedding. -/
theorem ingestTextSourceToRag_idempotent_shrink_safe
    (svc : EmbedService) (s0 : List VecRow) (src : IngestSource)
    (ids1 ids2 : Nat → String) (now1 now2 : String) (embs : List (Option String))
    (hne : ¬ chunkText src.textContent.toList chunkMaxLength = [])
    (hemb : embedTexts svc
      ((chunkText src.textContent.toList chunkMaxLength).map String.mk) = .ok embs) :
    ∃ s1 s2,
      ingestTextSourceToRag svc s0 src ids1 now1 = .ok (s1, true) ∧
      ingestTextSourceToRag svc s1 src ids2 now2 = .ok (s2, true) ∧
      (∀ i, i < (chunkText src.textContent.toList chunkMaxLength).length →
        ∃ r, lookupChunk s1 src.customerId src.sourceType src.sourceId i = some r ∧
          r.textContent =
            String.mk ((chunkText src.textContent.toList chunkMaxLength).getD i []) ∧
          r.embedding = embs.getD i none) ∧
      (∀ i, (chunkText src.textContent.toList chunkMaxLength).length ≤ i →
        lookupChunk s1 src.customerId src.sourceType src.sourceId i = none) ∧
      s2.length = s1.length ∧
      (∀ i, (lookupChunk s2 src.customerId src.sourceType src.sourceId i).map
          (fun r => (r.textContent, r.embedding)) =
        (lookupChunk s1 src.customerId src.sourceType src.sourceId i).map
          (fun r => (r.textContent, r.embedding))) := by
  have hlt1 := foldUpserts_lookup_lt s0 src ids1 now1
    (chunkText src.textContent.toList chunkMaxLength) embs
  refine ⟨deleteOrphanChunks
      (foldUpserts s0 src ids1 now1 (chunkText src.textContent.toList chunkMaxLength) embs
        (chunkText src.textContent.toList chunkMaxLength).length)
      src.customerId src.sourceType src.sourceId
      (chunkText src.textContent.toList chunkMaxLength).length, _,
    ingest_eq_of_ok svc s0 src ids1 now1 embs hne hemb,
    ingest_eq_of_ok svc _ src ids2 now2 embs hne hemb, ?_, ?_, ?_, ?_⟩
  all_goals
    set chunks := chunkText src.textContent.toList chunkMaxLength with hchunksdef
    set n := chunks.length with hndef
    set s1 := deleteOrphanChunks (foldUpserts s0 src ids1 now1 chunks embs n)
      src.customerId src.sourceType src.sourceId n with hs1def
  · intro i hi
    rw [hs1def, deleteOrphan_lookup_lt _ _ _ _ _ _ hi]
    exact foldUpserts_lookup_lt s0 src ids1 now1 chunks embs n i hi
  · intro i hi
    rw [hs1def]
    exact deleteOrphan_lookup_ge _ _ _ _ _ _ hi
  · have hs1lt : ∀ i, i < n →
        (lookupChunk s1 src.customerId src.sourceType src.sourceId i).isSome = true := by
      intro i hi
      rw [hs1def, deleteOrphan_lookup_lt _ _ _ _ _ _ hi]
      obtain ⟨r, hr, -, -⟩ := foldUpserts_lookup_lt s0 src ids1 now1 chunks embs n i hi
      rw [hr]
      rfl
    have hs1ge : ∀ i, n ≤ i →
        lookupChunk s1 src.customerId src.sourceType src.sourceId i = none := by
      intro i hi
      rw [hs1def]
      exact deleteOrphan_lookup_ge _ _ _ _ _ _ hi
    have hfoldge : ∀ i, n ≤ i →
        lookupChunk (foldUpserts s1 src ids2 now2 chunks embs n)
          src.customerId src.sourceType src.sourceId i = none := by
      intro i hi
      rw [foldUpserts_lookup_ge s1 src ids2 now2 chunks embs n i hi]
      exact hs1ge i hi
    rw [deleteOrphan_eq_self _ _ _ _ _ hfoldge]
    exact foldUpserts_length s1 src ids2 now2 chunks embs n hs1lt
  · have hs1lt := fun i hi => foldUpserts_lookup_lt s0 src ids1 now1 chunks embs n i hi
    have hs1ge : ∀ i, n ≤ i →
        lookupChunk s1 src.customerId src.sourceType src.sourceId i = none := by
      intro i hi
      rw [hs1def]
      exact deleteOrphan_lookup_ge _ _ _ _ _ _ hi
    have hfoldge : ∀ i, n ≤ i →
        lookupChunk (foldUpserts s1 src ids2 now2 chunks embs n)
          src.customerId src.sourceType src.sourceId i = none := by
      intro i hi
      rw [foldUpserts_lookup_ge s1 src ids2 now2 chunks embs n i hi]
      exact hs1ge i hi
    rw [deleteOrphan_eq_self _ _ _ _ _ hfoldge]
    intro i
    by_cases hi : i < n
    · obtain ⟨r2, hr2, hrt2, hre2⟩ := foldUpserts_lookup_lt s1 src ids2 now2 chunks embs n i hi
      have hlook1' : ∃ r, lookupChunk s1 src.customerId src.sourceType src.sourceId i =
          some r ∧ r.textContent = String.mk (chunks.getD i []) ∧
          r.embedding = embs.getD i none := by
        rw [hs1def, deleteOrphan_lookup_lt _ _ _ _ _ _ hi]
        exact hs1lt i hi
      obtain ⟨r1, hr1, hrt1, hre1⟩ := hlook1'
      rw [hr1, hr2]
      simp [hrt1, hrt2, hre1, hre2]
    · have hge : n ≤ i := by omega
      rw [foldUpserts_lookup_ge s1 src ids2 now2 chunks embs n i hge, hs1ge i hge]

/-- A previously stored chunk row at index 0 of a project-doc source. -/
def orphanRow : VecRow :=
  { id := ("v0" : String)
    customerId := ("c1" : String)
    sourceType := .projectDoc
    category := ("general" : String)
    channel := none
    sourceId := ("doc-1" : String)
    chunkIndex := 0
    textContent := ("old text" : String)
    embedding := none
    metadata := []
    createdAt := ("t0" : String)
    updatedAt := ("t0" : String) }

/-- A re-ingest of the same source with empty text. -/
def emptyIngestSrc : IngestSource :=
  { customerId := ("c1" : String)
    sourceType := .projectDoc
    sourceId := ("doc-1" : String)
    category := ("general" : String)
    channel := none
    textContent := ("" : String)
    metadata := [] }

/-- C5 counterexample: re-ingesting the same source with an empty (shorter)
text yields zero chunks, so the claim demands the stored chunk at index
`0 >= 0` be deleted; the code instead answers a no-op and the row survives. -/
theorem ingest_empty_text_keeps_orphans :
    chunkText emptyIngestSrc.textContent.toList chunkMaxLength = [] ∧
    ingestTextSourceToRag .noKey [orphanRow] emptyIngestSrc (fun _ => ("u" : String))
        ("t1" : String) = .ok ([orphanRow], false) ∧
    lookupChunk [orphanRow] emptyIngestSrc.customerId emptyIngestSrc.sourceType
        emptyIngestSrc.sourceId 0 = some orphanRow := by
  refine ⟨by decide, by decide, by decide⟩

/-- A project-doc ingest source with a one-chunk text. -/
def docIngestSrc : IngestSource :=
  { customerId := ("c1" : String)
    sourceType := .projectDoc
    sourceId := ("doc-1" : String)
    category := ("general" : String)
    channel := none
    textContent := ("hello world" : String)
    metadata := [] }

/-- C5 witness: the idempotent-and-shrink-safe theorem applied to a concrete
one-chunk source with the embedding service unconfigured. -/
theorem ingestTextSourceToRag_idempotent_shrink_safe_witness :
    ∃ s1 s2,
      ingestTextSourceToRag .noKey [orphanRow] docIngestSrc (fun _ => ("u1" : String))
        ("t1" : String) = .ok (s1, true) ∧
      ingestTextSourceToRag .noKey s1 docIngestSrc (fun _ => ("u2" : String))
        ("t2" : String) = .ok (s2, true) ∧
      (∀ i, i < (chunkText docIngestSrc.textContent.toList chunkMaxLength).length →
        ∃ r, lookupChunk s1 docIngestSrc.customerId docIngestSrc.sourceType
            docIngestSrc.sourceId i = some r ∧
          r.textContent =
            String.mk ((chunkText docIngestSrc.textContent.toList chunkMaxLength).getD i []) ∧
          r.embedding = [Option.none].getD i none) ∧
      (∀ i, (chunkText docIngestSrc.textContent.toList chunkMaxLength).length ≤ i →
        lookupChunk s1 docIngestSrc.customerId docIngestSrc.sourceType
          docIngestSrc.sourceId i = none) ∧
      s2.length = s1.length ∧
      (∀ i, (lookupChunk s2 docIngestSrc.customerId docIngestSrc.sourceType
          docIngestSrc.sourceId i).map (fun r => (r.textContent, r.embedding)) =
        (lookupChunk s1 docIngestSrc.customerId docIngestSrc.sourceType
          docIngestSrc.sourceId i).map (fun r => (r.textContent, r.embedding))) :=
  ingestTextSourceToRag_idempotent_shrink_safe .noKey [orphanRow] docIngestSrc
    (fun _ => ("u1" : String)) (fun _ => ("u2" : String)) ("t1" : String) ("t2" : String)
    [Option.none] (by decide) (by decide)

/-- C6 counterexample: with the embedding service present but failing, the
ingest of a non-empty text does not store chunks with null embeddings — it
fails outright with the propagated embedding error. -/
theorem ingest_failing_embed_service_errors :
    ingestTextSourceToRag (.failing ("503 upstream" : String)) [] docIngestSrc
        (fun _ => ("u" : String)) ("t1" : String) =
      .error ("Embedding request failed: 503 upstream") := by
  decide

theorem getD_map_none {α β : Type} (l : List α) (i : Nat) :
    (l.map (fun _ => (none : Option β))).getD i none = none := by
  induction l generalizing i with
  | nil => rfl
  | cons a t ih =>
    cases i with
    | zero => rfl
    | succ j => exact ih j

/-- C6 amended: when the embedding service is missing (no API key), every
chunk of a successful ingest is stored with a null embedding and the ingest
succeeds; a failing embedding request instead propagates its error. -/
theorem ingest_noKey_null_embeddings (store : List VecRow) (src : IngestSource)
    (ids : Nat → String) (now : String)
    (hne : ¬ chunkText src.textContent.toList chunkMaxLength = []) :
    ∃ s', ingestTextSourceToRag .noKey store src ids now = .ok (s', true) ∧
      (∀ i, i < (chunkText src.textContent.toList chunkMaxLength).length →
        ∃ r, lookupChunk s' src.customerId src.sourceType src.sourceId i = some r ∧
          r.embedding = none ∧
          r.textContent =
            String.mk ((chunkText src.textContent.toList chunkMaxLength).getD i [])) ∧
      (∀ detail, ingestTextSourceToRag (.failing detail) store src ids now =
        .error (("Embedding request failed: " : String) ++ detail)) := by
  have hmapne : ((chunkText src.textContent.toList chunkMaxLength).map String.mk).isEmpty =
      false := by
    cases hc : chunkText src.textContent.toList chunkMaxLength with
    | nil => exact absurd hc hne
    | cons a t => simp [hc]
  have hemb : embedTexts .noKey
      ((chunkText src.textContent.toList chunkMaxLength).map String.mk) =
      .ok (((chunkText src.textContent.toList chunkMaxLength).map String.mk).map
        (fun _ => none)) := by
    unfold embedTexts
    rw [hmapne]
    simp
  refine ⟨_, ingest_eq_of_ok .noKey store src ids now _ hne hemb, ?_, ?_⟩
  · intro i hi
    rw [deleteOrphan_lookup_lt _ _ _ _ _ _ hi]
    obtain ⟨r, hr, hrt, hre⟩ := foldUpserts_lookup_lt store src ids now
      (chunkText src.textContent.toList chunkMaxLength)
      (((chunkText src.textContent.toList chunkMaxLength).map String.mk).map (fun _ => none))
      (chunkText src.textContent.toList chunkMaxLength).length i hi
    refine ⟨r, hr, ?_, hrt⟩
    rw [hre, getD_map_none]
  · intro detail
    unfold ingestTextSourceToRag
    simp only []
    rw [if_neg hne]
    unfold embedTexts
    rw [hmapne]
    simp

/-- C6 witness: the null-embedding theorem applied to the concrete one-chunk
source. -/
theorem ingest_noKey_null_embeddings_witness :
    ∃ s', ingestTextSourceToRag .noKey [] docIngestSrc (fun _ => ("u" : String))
        ("t1" : String) = .ok (s', true) ∧
      (∀ i, i < (chunkText docIngestSrc.textContent.toList chunkMaxLength).length →
        ∃ r, lookupChunk s' docIngestSrc.customerId docIngestSrc.sourceType
            docIngestSrc.sourceId i = some r ∧
          r.embedding = none ∧
          r.textContent =
            String.mk ((chunkText docIngestSrc.textContent.toList chunkMaxLength).getD i [])) ∧
      (∀ detail, ingestTextSourceToRag (.failing detail) [] docIngestSrc
          (fun _ => ("u" : String)) ("t1" : String) =
        .error (("Embedding request failed: " : String) ++ detail)) :=
  ingest_noKey_null_embeddings [] docIngestSrc (fun _ => ("u" : String)) ("t1" : String)
    (by decide)

/-! ## Publishing scheduler (`services/publishing/scheduler.ts`, the unnamed
source part defining `startPublishingScheduler`) -/

/-- Lexicographic character-list comparison, the order the database applies to
the ASCII ISO-8601 `scheduled_at` strings. -/
def charListLt : List Char → List Char → Bool
  | [], [] => false
  | [], _ :: _ => true
  | _ :: _, [] => false
  | a :: as, b :: bs =>
    if a.toNat < b.toNat then true
    else if b.toNat < a.toNat then false
    else charListLt as bs

/-- `scheduled_at <= $now` on ISO timestamp strings. -/
def strLe (a b : String) : Bool := charListLt a.toList b.toList || decide (a = b)

/-- Insertion into a list sorted by `scheduled_at` ascending. -/
def insertBySched (p : Post) : List Post → List Post
  | [] => [p]
  | q :: t =>
    if strLe p.scheduledAt q.scheduledAt then p :: q :: t else q :: insertBySched p t

/-- `ORDER BY scheduled_at ASC`. -/
def sortBySched : List Post → List Post
  | [] => []
  | p :: t => insertBySched p (sortBySched t)

/-- `fetchDuePosts`: approved posts due by `nowIso`, ordered by `scheduled_at`
ascending, capped at `batchSize`. -/
def fetchDuePosts (posts : List Post) (nowIso : String) (batchSize : Nat) : List Post :=
  (sortBySched (posts.filter
    (fun p => p.status = PostStatus.approved ∧ strLe p.scheduledAt nowIso = true))).take
    batchSize

/-- `markPostPublishing`: `SET status = 'publishing', updated_at = now`. -/
def markPostPublishing (posts : List Post) (postId nowIso : String) : List Post :=
  posts.map (fun p =>
    if p.id = postId then { p with status := .publishing, updatedAt := nowIso } else p)

/-- A queued publish job (BullMQ job with an explicit `jobId`). -/
structure PublishJob where
  jobId : String
  name : String
  postId : String
  customerId : String
  channel : PostChannel
  scheduledAt : String
deriving DecidableEq, Repr

/-- `enqueuePublishPost` with `jobId = publish-post:<postId>`: adding a job
whose id is already queued is a no-op for the queue. -/
def enqueuePublishPost (queue : List PublishJob) (p : Post) : List PublishJob :=
  let jobId := ("publish-post:" : String) ++ p.id
  if queue.any (fun j => j.jobId = jobId) then queue
  else
    queue ++ [{ jobId := jobId, name := ("publish-post" : String), postId := p.id,
                customerId := p.customerId, channel := p.channel,
                scheduledAt := p.scheduledAt }]

/-- `scheduleDuePosts`: fetch the due batch, then claim each post
(status `publishing`) and enqueue its publish job; answers the batch size. -/
def scheduleDuePosts (posts : List Post) (queue : List PublishJob) (nowIso : String)
    (batchSize : Nat) : List Post × List PublishJob × Nat :=
  let due := fetchDuePosts posts nowIso batchSize
  let final := due.foldl
    (fun acc p => (markPostPublishing acc.1 p.id nowIso, enqueuePublishPost acc.2 p))
    (posts, queue)
  (final.1, final.2, due.length)

/-- The two concurrently issued tick invocations being analyzed. -/
inductive TickWho where
  | ta
  | tb
deriving DecidableEq, Repr

/-- How a finished tick ended: normally, denied by the single-flight guard, or
by an error thrown inside `scheduleDuePosts` (released by the `finally`). -/
inductive TickOutcome where
  | ok
  | early
  | errored
deriving DecidableEq, Repr

/-- The program counter of one `tick()` invocation.  The synchronous prefix
(guard check plus `running = true`) is one atomic step; each loop iteration of
`scheduleDuePosts` is one step; `done` records the returned count. -/
inductive TickPc where
  | start
  | fetching
  | claiming (pending : List Post) (claimed : Nat)
  | done (result : Nat) (outcome : TickOutcome)
deriving DecidableEq, Repr

/-- Whether the invocation is inside the guarded body. -/
def TickPc.inBody : TickPc → Bool
  | .fetching => true
  | .claiming _ _ => true
  | _ => false

/-- The clock readings of the two ticks, the batch size, and an optional
iteration index at which the tick's `scheduleDuePosts` throws. -/
structure TickEnv where
  nowA : String
  nowB : String
  batchSize : Nat
  failA : Option Nat
  failB : Option Nat
deriving DecidableEq, Repr

/-- Shared state of the scheduler process: the module-level `running` flag,
the database and the queue, both ticks' program counters, and how many posts
each tick has claimed. -/
structure TickConfig where
  running : Bool
  posts : List Post
  queue : List PublishJob
  pcA : TickPc
  pcB : TickPc
  claimsA : Nat
  claimsB : Nat
deriving DecidableEq, Repr

/-- One atomic step of the chosen tick.  A finished tick takes no further
steps. -/
def tickStep (env : TickEnv) (who : TickWho) (c : TickConfig) : TickConfig :=
  match who with
  | .ta =>
    match c.pcA with
    | .start =>
      if c.running then { c with pcA := .done 0 .early }
      else { c with running := true, pcA := .fetching }
    | .fetching =>
      { c with pcA := .claiming (fetchDuePosts c.posts env.nowA env.batchSize) 0 }
    | .claiming [] n => { c with running := false, pcA := .done n .ok }
    | .claiming (p :: rest) n =>
      if env.failA = some n then { c with running := false, pcA := .done n .errored }
      else
        { c with
          posts := markPostPublishing c.posts p.id env.nowA
          queue := enqueuePublishPost c.queue p
          pcA := .claiming rest (n + 1)
          claimsA := c.claimsA + 1 }
    | .done _ _ => c
  | .tb =>
    match c.pcB with
    | .start =>
      if c.running then { c with pcB := .done 0 .early }
      else { c with running := true, pcB := .fetching }
    | .fetching =>
      { c with pcB := .claiming (fetchDuePosts c.posts env.nowB env.batchSize) 0 }
    | .claiming [] n => { c with running := false, pcB := .done n .ok }
    | .claiming (p :: rest) n =>
      if env.failB = some n then { c with running := false, pcB := .done n .errored }
      else
        { c with
          posts := markPostPublishing c.posts p.id env.nowB
          queue := enqueuePublishPost c.queue p
          pcB := .claiming rest (n + 1)
          claimsB := c.claimsB + 1 }
    | .done _ _ => c

/-- Run a whole interleaving. -/
def runTicks (env : TickEnv) (c : TickConfig) (tr : List TickWho) : TickConfig :=
  tr.foldl (fun cfg w => tickStep env w cfg) c

/-- Both ticks issued against a quiescent scheduler. -/
def tickInit (posts : List Post) (queue : List PublishJob) : TickConfig :=
  { running := false, posts := posts, queue := queue, pcA := .start, pcB := .start,
    claimsA := 0, claimsB := 0 }


theorem inBody_start : TickPc.start.inBody = false := rfl

theorem inBody_fetching : TickPc.fetching.inBody = true := rfl

theorem inBody_claiming (pending : List Post) (n : Nat) :
    (TickPc.claiming pending n).inBody = true := rfl

theorem inBody_done (n : Nat) (o : TickOutcome) : (TickPc.done n o).inBody = false := rfl

/-- The single-flight invariant: `running` is set exactly while one of the two
ticks is inside the body, the bodies are mutually exclusive, a tick that has
not entered the body has claimed nothing, and a tick denied by the guard
reports zero having claimed nothing. -/
def tickInv (c : TickConfig) : Prop :=
  c.running = (c.pcA.inBody || c.pcB.inBody) ∧
  (c.pcA.inBody && c.pcB.inBody) = false ∧
  (c.pcA = .start → c.claimsA = 0) ∧
  (c.pcB = .start → c.claimsB = 0) ∧
  (∀ n, c.pcA = .done n .early → n = 0 ∧ c.claimsA = 0) ∧
  (∀ n, c.pcB = .done n .early → n = 0 ∧ c.claimsB = 0)

theorem tickInv_init (posts : List Post) (queue : List PublishJob) :
    tickInv (tickInit posts queue) := by
  refine ⟨rfl, rfl, fun _ => rfl, fun _ => rfl, ?_, ?_⟩ <;> intro n h <;>
    simp [tickInit] at h

theorem tickInv_step (env : TickEnv) (who : TickWho) (c : TickConfig) (h : tickInv c) :
    tickInv (tickStep env who c) := by
  obtain ⟨hrun, hmux, hstartA, hstartB, hearlyA, hearlyB⟩ := h
  cases who
  case ta =>
    cases hpc : c.pcA with
    | start =>
      rw [hpc, inBody_start, Bool.false_or] at hrun
      by_cases hr : c.running = true
      · have hB : c.pcB.inBody = true := by rw [← hrun]; exact hr
        simp only [tickStep, hpc, hr, if_true]
        refine ⟨?_, ?_, ?_, ?_, ?_, ?_⟩
        · simp [inBody_done, hB, hr]
        · simp [inBody_done]
        · intro hcon; cases hcon
        · exact hstartB
        · intro n hn
          injection hn with h1 h2
          exact ⟨h1.symm, hstartA hpc⟩
        · exact hearlyB
      · have hr' : c.running = false := by
          cases hv : c.running
          · rfl
          · exact absurd hv hr
        have hB : c.pcB.inBody = false := by rw [← hrun]; exact hr'
        simp only [tickStep, hpc, hr', Bool.false_eq_true, if_false]
        refine ⟨?_, ?_, ?_, ?_, ?_, ?_⟩
        · simp [inBody_fetching, hB]
        · simp [inBody_fetching, hB]
        · intro hcon; cases hcon
        · exact hstartB
        · intro n hn; cases hn
        · exact hearlyB
    | fetching =>
      rw [hpc, inBody_fetching] at hrun hmux
      simp only [tickStep, hpc]
      refine ⟨?_, ?_, ?_, ?_, ?_, ?_⟩
      · simpa [inBody_claiming, inBody_fetching] using hrun
      · simpa [inBody_claiming, inBody_fetching] using hmux
      · intro hcon; cases hcon
      · exact hstartB
      · intro n hn; cases hn
      · exact hearlyB
    | claiming pending claimed =>
      rw [hpc, inBody_claiming, Bool.true_and] at hmux
      rw [hpc, inBody_claiming, Bool.true_or] at hrun
      cases pending with
      | nil =>
        simp only [tickStep, hpc]
        refine ⟨?_, ?_, ?_, ?_, ?_, ?_⟩
        · simp [inBody_done, hmux]
        · simp [inBody_done]
        · intro hcon; cases hcon
        · exact hstartB
        · intro n hn
          injection hn with h1 h2
          cases h2
        · exact hearlyB
      | cons p rest =>
        by_cases hf : env.failA = some claimed
        · simp only [tickStep, hpc, hf, if_true]
          refine ⟨?_, ?_, ?_, ?_, ?_, ?_⟩
          · simp [inBody_done, hmux]
          · simp [inBody_done]
          · intro hcon; cases hcon
          · exact hstartB
          · intro n hn
            injection hn with h1 h2
            cases h2
          · exact hearlyB
        · simp only [tickStep, hpc, hf, if_false]
          refine ⟨?_, ?_, ?_, ?_, ?_, ?_⟩
          · simp [inBody_claiming, hrun]
          · simpa [inBody_claiming] using hmux
          · intro hcon; cases hcon
          · exact hstartB
          · intro n hn; cases hn
          · exact hearlyB
    | done r o =>
      have hstep : tickStep env .ta c = c := by
        simp [tickStep, hpc]
      rw [hstep]
      exact ⟨hrun, hmux, hstartA, hstartB, hearlyA, hearlyB⟩
  case tb =>
    cases hpc : c.pcB with
    | start =>
      rw [hpc, inBody_start, Bool.or_false] at hrun
      by_cases hr : c.running = true
      · have hA : c.pcA.inBody = true := by rw [← hrun]; exact hr
        simp only [tickStep, hpc, hr, if_true]
        refine ⟨?_, ?_, ?_, ?_, ?_, ?_⟩
        · simp [inBody_done, hA, hr]
        · simp [inBody_done]
        · exact hstartA
        · intro hcon; cases hcon
        · exact hearlyA
        · intro n hn
          injection hn with h1 h2
          exact ⟨h1.symm, hstartB hpc⟩
      · have hr' : c.running = false := by
          cases hv : c.running
          · rfl
          · exact absurd hv hr
        have hA : c.pcA.inBody = false := by rw [← hrun]; exact hr'
        simp only [tickStep, hpc, hr', Bool.false_eq_true, if_false]
        refine ⟨?_, ?_, ?_, ?_, ?_, ?_⟩
        · simp [inBody_fetching, hA]
        · simp [inBody_fetching, hA]
        · exact hstartA
        · intro hcon; cases hcon
        · exact hearlyA
        · intro n hn; cases hn
    | fetching =>
      rw [hpc, inBody_fetching] at hrun hmux
      simp only [tickStep, hpc]
      refine ⟨?_, ?_, ?_, ?_, ?_, ?_⟩
      · simpa [inBody_claiming, inBody_fetching] using hrun
      · simpa [inBody_claiming, inBody_fetching] using hmux
      · exact hstartA
      · intro hcon; cases hcon
      · exact hearlyA
      · intro n hn; cases hn
    | claiming pending claimed =>
      rw [hpc, inBody_claiming, Bool.and_true] at hmux
      rw [hpc, inBody_claiming, Bool.or_true] at hrun
      cases pending with
      | nil =>
        simp only [tickStep, hpc]
        refine ⟨?_, ?_, ?_, ?_, ?_, ?_⟩
        · simp [inBody_done, hmux]
        · simp [inBody_done]
        · exact hstartA
        · intro hcon; cases hcon
        · exact hearlyA
        · intro n hn
          injection hn with h1 h2
          cases h2
      | cons p rest =>
        by_cases hf : env.failB = some claimed
        · simp only [tickStep, hpc, hf, if_true]
          refine ⟨?_, ?_, ?_, ?_, ?_, ?_⟩
          · simp [inBody_done, hmux]
          · simp [inBody_done]
          · exact hstartA
          · intro hcon; cases hcon
          · exact hearlyA
          · intro n hn
            injection hn with h1 h2
            cases h2
        · simp only [tickStep, hpc, hf, if_false]
          refine ⟨?_, ?_, ?_, ?_, ?_, ?_⟩
          · simp [inBody_claiming, hrun]
          · simpa [inBody_claiming] using hmux
          · exact hstartA
          · intro hcon; cases hcon
          · exact hearlyA
          · intro n hn; cases hn
    | done r o =>
      have hstep : tickStep env .tb c = c := by
        simp [tickStep, hpc]
      rw [hstep]
      exact ⟨hrun, hmux, hstartA, hstartB, hearlyA, hearlyB⟩

theorem tickInv_run (env : TickEnv) (posts : List Post) (queue : List PublishJob)
    (tr : List TickWho) : tickInv (runTicks env (tickInit posts queue) tr) := by
  suffices h : ∀ c, tickInv c → tickInv (runTicks env c tr) from
    h _ (tickInv_init posts queue)
  induction tr with
  | nil => intro c hc; exact hc
  | cons w t ih =>
    intro c hc
    exact ih _ (tickInv_step env w c hc)

/-- Running tick A alone through its claim loop performs exactly the
mark-and-enqueue fold of `scheduleDuePosts` and releases the guard. -/
theorem runTicks_claimingA (env : TickEnv) (hfail : env.failA = none) :
    ∀ (pending : List Post) (n : Nat) (c : TickConfig), c.pcA = .claiming pending n →
      runTicks env c (List.replicate (pending.length + 1) .ta) =
        { c with
          posts := (pending.foldl (fun acc p =>
            (markPostPublishing acc.1 p.id env.nowA, enqueuePublishPost acc.2 p))
            (c.posts, c.queue)).1
          queue := (pending.foldl (fun acc p =>
            (markPostPublishing acc.1 p.id env.nowA, enqueuePublishPost acc.2 p))
            (c.posts, c.queue)).2
          running := false
          pcA := .done (n + pending.length) .ok
          claimsA := c.claimsA + pending.length } := by
  intro pending
  induction pending with
  | nil =>
    intro n c hpc
    show runTicks env c [.ta] = _
    unfold runTicks
    simp only [List.foldl_cons, List.foldl_nil]
    simp only [tickStep, hpc]
    cases c
    simp
  | cons p rest ih =>
    intro n c hpc
    obtain ⟨run, posts, queue, pcA, pcB, clA, clB⟩ := c
    simp only at hpc
    subst hpc
    have hrep : List.replicate ((p :: rest).length + 1) TickWho.ta =
        .ta :: List.replicate (rest.length + 1) .ta := by
      simp [List.replicate]
    rw [hrep]
    have hstep : tickStep env .ta
        (TickConfig.mk run posts queue (.claiming (p :: rest) n) pcB clA clB) =
        TickConfig.mk run (markPostPublishing posts p.id env.nowA)
          (enqueuePublishPost queue p) (.claiming rest (n + 1)) pcB (clA + 1) clB := by
      simp [tickStep, hfail]
    have hrun : runTicks env
        (TickConfig.mk run posts queue (.claiming (p :: rest) n) pcB clA clB)
        (.ta :: List.replicate (rest.length + 1) .ta) =
        runTicks env (tickStep env .ta
          (TickConfig.mk run posts queue (.claiming (p :: rest) n) pcB clA clB))
          (List.replicate (rest.length + 1) .ta) := rfl
    rw [hrun, hstep]
    rw [ih (n + 1) _ rfl]
    have harith : n + 1 + rest.length = n + (rest.length + 1) := by omega
    simp only [List.foldl_cons]
    simp [harith, Nat.add_assoc]
    omega

/-- A solo tick from a quiescent scheduler performs exactly
`scheduleDuePosts` and finishes with the guard released. -/
theorem runTicks_soloA (env : TickEnv) (hfail : env.failA = none) (c : TickConfig)
    (hpc : c.pcA = .start) (hr : c.running = false) :
    runTicks env c
        (.ta :: .ta ::
          List.replicate ((fetchDuePosts c.posts env.nowA env.batchSize).length + 1) .ta) =
      { c with
        running := false
        posts := (scheduleDuePosts c.posts c.queue env.nowA env.batchSize).1
        queue := (scheduleDuePosts c.posts c.queue env.nowA env.batchSize).2.1
        pcA := .done (scheduleDuePosts c.posts c.queue env.nowA env.batchSize).2.2 .ok
        claimsA := c.claimsA +
          (scheduleDuePosts c.posts c.queue env.nowA env.batchSize).2.2 } := by
  have hstep1 : tickStep env .ta c = { c with running := true, pcA := .fetching } := by
    simp [tickStep, hpc, hr]
  have hstep2 : tickStep env .ta { c with running := true, pcA := .fetching } =
      { c with
        running := true
        pcA := .claiming (fetchDuePosts c.posts env.nowA env.batchSize) 0 } := by
    simp [tickStep]
  have hrun : runTicks env c
      (.ta :: .ta ::
        List.replicate ((fetchDuePosts c.posts env.nowA env.batchSize).length + 1) .ta) =
      runTicks env (tickStep env .ta (tickStep env .ta c))
        (List.replicate ((fetchDuePosts c.posts env.nowA env.batchSize).length + 1) .ta) :=
    rfl
  rw [hrun, hstep1, hstep2,
    runTicks_claimingA env hfail (fetchDuePosts c.posts env.nowA env.batchSize) 0 _ rfl]
  unfold scheduleDuePosts
  cases c
  simp

/-- C8: the scheduler tick is single-flight.  Along every interleaving of two
tick invocations from a quiescent scheduler: the guarded bodies never overlap;
a tick that checks the guard while the other is inside the body is denied on
the spot — it finishes with result 0, claims nothing, and changes nothing
else; any guard-denied tick reported 0 and claimed nothing; the guard is free
whenever no tick is mid-body (in particular after a tick that failed with an
error, released by the `finally`); a tick checking a free guard enters the
body; and a tick running the body to completion performs exactly
`scheduleDuePosts`. -/
theorem scheduler_tick_single_flight (env : TickEnv) (posts : List Post)
    (queue : List PublishJob) (tr : List TickWho) (c : TickConfig)
    (hc : c = runTicks env (tickInit posts queue) tr) :
    (c.pcA.inBody && c.pcB.inBody) = false ∧
    (c.pcA.inBody = true → c.pcB = .start →
      tickStep env .tb c = { c with pcB := .done 0 .early }) ∧
    (∀ n, c.pcB = .done n .early → n = 0 ∧ c.claimsB = 0) ∧
    (c.pcA.inBody = false → c.pcB.inBody = false → c.running = false) ∧
    (c.pcA.inBody = false → c.pcB = .start →
      tickStep env .tb c = { c with running := true, pcB := .fetching }) ∧
    (env.failA = none →
      runTicks env (tickInit posts queue)
        (.ta :: .ta ::
          List.replicate ((fetchDuePosts posts env.nowA env.batchSize).length + 1) .ta) =
      { tickInit posts queue with
        posts := (scheduleDuePosts posts queue env.nowA env.batchSize).1
        queue := (scheduleDuePosts posts queue env.nowA env.batchSize).2.1
        pcA := .done (scheduleDuePosts posts queue env.nowA env.batchSize).2.2 .ok
        claimsA := (scheduleDuePosts posts queue env.nowA env.batchSize).2.2 }) := by
  obtain ⟨hrun, hmux, hstartA, hstartB, hearlyA, hearlyB⟩ :
      tickInv c := hc ▸ tickInv_run env posts queue tr
  refine ⟨hmux, ?_, hearlyB, ?_, ?_, ?_⟩
  · intro hA hB
    have hr : c.running = true := by
      rw [hrun, hA, Bool.true_or]
    simp [tickStep, hB, hr]
  · intro hA hB
    rw [hrun, hA, hB]
    rfl
  · intro hA hB
    have hBnb : c.pcB.inBody = false := by rw [hB]; rfl
    have hr : c.running = false := by
      rw [hrun, hA, hBnb]
      rfl
    simp [tickStep, hB, hr]
  · intro hfail
    have h := runTicks_soloA env hfail (tickInit posts queue) rfl rfl
    simp only [tickInit] at h ⊢
    rw [h]
    simp

/-- An approved post due before the witness clock reading. -/
def approvedDuePost : Post :=
  { publishedFixturePost with
    id := ("p7" : String)
    channel := .threads
    status := .approved
    scheduledAt := ("2026-01-01T00:00:00.000Z" : String) }

/-- The environment of the single-flight witness. -/
def tickEnvFixture : TickEnv :=
  { nowA := ("2026-01-02T00:00:00.000Z" : String)
    nowB := ("2026-01-02T00:00:00.000Z" : String)
    batchSize := 50
    failA := none
    failB := none }

/-- C8 witness: after tick A has claimed the guard and fetched the due batch,
tick B's guard check is denied — it finishes with 0 and claims nothing — and
the solo run of tick A performs exactly `scheduleDuePosts`. -/
theorem scheduler_tick_single_flight_witness :
    tickStep tickEnvFixture .tb
        (runTicks tickEnvFixture (tickInit [approvedDuePost] []) [.ta, .ta]) =
      { runTicks tickEnvFixture (tickInit [approvedDuePost] []) [.ta, .ta] with
        pcB := .done 0 .early } ∧
    runTicks tickEnvFixture (tickInit [approvedDuePost] [])
        ([.ta, .ta] ++
          List.replicate
            ((fetchDuePosts [approvedDuePost] tickEnvFixture.nowA
              tickEnvFixture.batchSize).length + 1) .ta) =
      { tickInit [approvedDuePost] [] with
        posts := (scheduleDuePosts [approvedDuePost] [] tickEnvFixture.nowA
          tickEnvFixture.batchSize).1
        queue := (scheduleDuePosts [approvedDuePost] [] tickEnvFixture.nowA
          tickEnvFixture.batchSize).2.1
        pcA := .done (scheduleDuePosts [approvedDuePost] [] tickEnvFixture.nowA
          tickEnvFixture.batchSize).2.2 .ok
        claimsA := (scheduleDuePosts [approvedDuePost] [] tickEnvFixture.nowA
          tickEnvFixture.batchSize).2.2 } := by
  have h := scheduler_tick_single_flight tickEnvFixture [approvedDuePost] [] [.ta, .ta]
    (runTicks tickEnvFixture (tickInit [approvedDuePost] []) [.ta, .ta]) rfl
  exact ⟨h.2.1 (by decide) (by decide), h.2.2.2.2.2 rfl⟩

/-! ## RAG output sanitization (`services/content/rag.ts`, `sanitizeRagText`)

The six scrub regular expressions are embedded as token patterns: a pattern is
a sequence of case-insensitive literals, whitespace gaps (`\s+`/`\s*`) and the
optional one-character separator class `[_ -]?`.  `Matches` is the semantic
(occurrence) reading of a pattern; `matchAt` is the operational greedy matcher
used by the global-replace scan. -/

/-- The `[_ -]` separator class of the tool-call and api-key regexes. -/
def sepClass (c : Char) : Bool := c = '_' || c = ' ' || c = '-'

/-- One token of a scrub regex. -/
inductive Tok where
  | lit (s : List Char)
  | wsPlus
  | wsStar
  | sepOpt
deriving DecidableEq, Repr

/-- Semantic matching: `Matches P mid` holds when `mid` is exactly one
occurrence of the pattern `P` (case-insensitive literals, whitespace gaps, the
optional separator). -/
def Matches : List Tok → List Char → Prop
  | [], s => s = []
  | .lit L :: ps, s => ∃ l r, s = l ++ r ∧ l.map lcChar = L ∧ Matches ps r
  | .wsPlus :: ps, s =>
    ∃ w r, s = w ++ r ∧ w ≠ [] ∧ (∀ c ∈ w, isJsWs c = true) ∧ Matches ps r
  | .wsStar :: ps, s => ∃ w r, s = w ++ r ∧ (∀ c ∈ w, isJsWs c = true) ∧ Matches ps r
  | .sepOpt :: ps, s => Matches ps s ∨ ∃ c r, s = c :: r ∧ sepClass c = true ∧ Matches ps r

/-- A pattern occurrence starting at the head of the string. -/
def startsWithMatch (P : List Tok) (s : List Char) : Prop :=
  ∃ mid b, s = mid ++ b ∧ Matches P mid

/-- A pattern occurrence anywhere in the string. -/
def occursIn (P : List Tok) (s : List Char) : Prop :=
  ∃ a mid b, s = a ++ mid ++ b ∧ Matches P mid

/-- The greedy matcher at the head of a string, returning the number of
characters the JavaScript regex engine consumes. -/
def matchAt : List Tok → List Char → Option Nat
  | [], _ => some 0
  | .lit L :: ps, s =>
    if (s.take L.length).map lcChar = L then
      (matchAt ps (s.drop L.length)).map (· + L.length)
    else none
  | .wsPlus :: ps, s =>
    let w := s.takeWhile isJsWs
    if w.isEmpty then none else (matchAt ps (s.drop w.length)).map (· + w.length)
  | .wsStar :: ps, s =>
    let w := s.takeWhile isJsWs
    (matchAt ps (s.drop w.length)).map (· + w.length)
  | .sepOpt :: ps, s =>
    match s with
    | c :: r =>
      if sepClass c then
        match matchAt ps r with
        | some n => some (n + 1)
        | none => matchAt ps (c :: r)
      else matchAt ps (c :: r)
    | [] => matchAt ps []

/-- The global-replace scan (`String.prototype.replace` with the `g` flag):
left to right, replacing each leftmost greedy match by the marker and
continuing after it.  `fuel` bounds the recursion; it is instantiated with the
input length. -/
def repAux (P : List Tok) (m : List Char) : Nat → List Char → List Char
  | _, [] => []
  | 0, s => s
  | fuel + 1, c :: rest =>
    match matchAt P (c :: rest) with
    | some (n + 1) => m ++ repAux P m fuel (rest.drop n)
    | _ => c :: repAux P m fuel rest

/-- `value.replace(pattern-with-g, marker)`. -/
def replaceAll (P : List Tok) (m : List Char) (s : List Char) : List Char :=
  repAux P m s.length s

/-- `value.replace(/\s+/g, ' ')`. -/
def collapseWs (s : List Char) : List Char :=
  replaceAll [.wsPlus] [' '] s

/-- `/ignore\s+previous\s+instructions/gi`. -/
def pIgnorePrev : List Tok :=
  [.lit ("ignore" : String).toList, .wsPlus, .lit ("previous" : String).toList, .wsPlus,
    .lit ("instructions" : String).toList]

/-- `/disregard\s+all\s+prior\s+rules/gi`. -/
def pDisregard : List Tok :=
  [.lit ("disregard" : String).toList, .wsPlus, .lit ("all" : String).toList, .wsPlus,
    .lit ("prior" : String).toList, .wsPlus, .lit ("rules" : String).toList]

/-- `/system\s*:\s*/gi`. -/
def pSystemColon : List Tok :=
  [.lit ("system" : String).toList, .wsStar, .lit (":" : String).toList, .wsStar]

/-- `/developer\s*:\s*/gi`. -/
def pDeveloperColon : List Tok :=
  [.lit ("developer" : String).toList, .wsStar, .lit (":" : String).toList, .wsStar]

/-- `/tool[_ -]?call/gi`. -/
def pToolCall : List Tok :=
  [.lit ("tool" : String).toList, .sepOpt, .lit ("call" : String).toList]

/-- `/api[_ -]?key/gi`. -/
def pApiKey : List Tok :=
  [.lit ("api" : String).toList, .sepOpt, .lit ("key" : String).toList]

/-- The replacement marker of the two instruction phrases. -/
def mInstructionLike : List Char := ("[removed: instruction-like text]" : String).toList

/-- The replacement marker of `system:` (note the trailing space). -/
def mSystemMimic : List Char := ("[removed: system-mimic text] " : String).toList

/-- The replacement marker of `developer:` (note the trailing space). -/
def mRoleMimic : List Char := ("[removed: role-mimic text] " : String).toList

/-- The replacement marker of the tool-call mimicry (it itself contains
`tool-call`). -/
def mToolCallMimic : List Char := ("[removed: tool-call mimic text]" : String).toList

/-- The replacement marker of the credential-like token. -/
def mCredentialLike : List Char := ("[removed: credential-like token]" : String).toList

/-- `sanitizeRagText`: the six scrub replacements in source order, then
whitespace collapsing and the final trim. -/
def sanitizeRagText (value : List Char) : List Char :=
  trimJs (collapseWs
    (replaceAll pApiKey mCredentialLike
      (replaceAll pToolCall mToolCallMimic
        (replaceAll pDeveloperColon mRoleMimic
          (replaceAll pSystemColon mSystemMimic
            (replaceAll pDisregard mInstructionLike
              (replaceAll pIgnorePrev mInstructionLike value)))))))

/-- A row of `content_vectors` as read by the RAG search queries. -/
structure ContentVectorRow where
  id : String
  source_type : String
  category : Option String
  channel : Option String
  performance : Option String
  source_id : Option String
  text_content : String
  metadata : List (String × String)
deriving DecidableEq, Repr

/-- A `RagReference` handed to the generation step. -/
structure RagReference where
  id : String
  sourceType : String
  category : Option String
  channel : Option String
  performance : Option String
  sourceId : Option String
  textContent : String
  metadata : List (String × String)
deriving DecidableEq, Repr

/-- The per-row body of `mapRows`: every returned fragment's text passes
through `sanitizeRagText`. -/
def mapRow (row : ContentVectorRow) : RagReference :=
  { id := row.id
    sourceType := row.source_type
    category := row.category
    channel := row.channel
    performance := row.performance
    sourceId := row.source_id
    textContent := String.mk (sanitizeRagText row.text_content.toList)
    metadata := row.metadata }

/-- `mapRows`. -/
def mapRows (rows : List ContentVectorRow) : List RagReference :=
  rows.map mapRow

theorem take_takeWhile_len {α : Type} (p : α → Bool) (l : List α) :
    l.take (l.takeWhile p).length = l.takeWhile p := by
  induction l with
  | nil => rfl
  | cons a t ih =>
    cases hpa : p a with
    | true => simp [List.takeWhile_cons, hpa, ih]
    | false => simp [List.takeWhile_cons, hpa]

theorem mem_takeWhile_ws {α : Type} (p : α → Bool) (l : List α) :
    ∀ c ∈ l.takeWhile p, p c = true := by
  induction l with
  | nil => intro c hc; cases hc
  | cons a t ih =>
    cases hpa : p a with
    | true =>
      intro c hc
      rw [List.takeWhile_cons, hpa] at hc
      simp only [if_true] at hc
      rcases List.mem_cons.mp hc with h | h
      · rw [h]; exact hpa
      · exact ih c h
    | false =>
      intro c hc
      rw [List.takeWhile_cons, hpa] at hc
      simp at hc

theorem takeWhile_split {α : Type} (p : α → Bool) (l : List α) :
    l = l.takeWhile p ++ l.drop (l.takeWhile p).length := by
  conv_lhs => rw [← List.take_append_drop (l.takeWhile p).length l]
  rw [take_takeWhile_len]

/-- Operational-to-semantic soundness of the greedy matcher: a match of length
`n` at the head is a semantic occurrence of exactly `n` characters. -/
theorem matchAt_sound : ∀ (P : List Tok) (s : List Char) (n : Nat),
    matchAt P s = some n → ∃ mid b, s = mid ++ b ∧ mid.length = n ∧ Matches P mid := by
  intro P
  induction P with
  | nil =>
    intro s n h
    simp only [matchAt, Option.some.injEq] at h
    exact ⟨[], s, rfl, by rw [← h]; rfl, rfl⟩
  | cons tok ps ih =>
    cases tok with
    | lit L =>
      intro s n h
      simp only [matchAt] at h
      by_cases hc : (s.take L.length).map lcChar = L
      · rw [if_pos hc] at h
        cases hmm : matchAt ps (s.drop L.length) with
        | none => rw [hmm] at h; cases h
        | some n' =>
          rw [hmm] at h
          simp only [Option.map_some', Option.some.injEq] at h
          obtain ⟨mid', b, hsplit, hlen, hm⟩ := ih _ _ hmm
          refine ⟨s.take L.length ++ mid', b, ?_, ?_, ?_⟩
          · rw [List.append_assoc, ← hsplit, List.take_append_drop]
          · have hlenL : (s.take L.length).length = L.length := by
              simpa using congrArg List.length hc
            simp [hlenL, hlen, ← h]
            omega
          · exact ⟨s.take L.length, mid', rfl, hc, hm⟩
      · rw [if_neg hc] at h
        cases h
    | wsPlus =>
      intro s n h
      simp only [matchAt] at h
      by_cases he : (s.takeWhile isJsWs).isEmpty
      · rw [if_pos he] at h
        cases h
      · rw [if_neg he] at h
        cases hmm : matchAt ps (s.drop (s.takeWhile isJsWs).length) with
        | none => rw [hmm] at h; cases h
        | some n' =>
          rw [hmm] at h
          simp only [Option.map_some', Option.some.injEq] at h
          obtain ⟨mid', b, hsplit, hlen, hm⟩ := ih _ _ hmm
          refine ⟨s.takeWhile isJsWs ++ mid', b, ?_, ?_, ?_⟩
          · rw [List.append_assoc, ← hsplit]
            exact takeWhile_split isJsWs s
          · simp [hlen, ← h]
            omega
          · refine ⟨s.takeWhile isJsWs, mid', rfl, ?_, mem_takeWhile_ws isJsWs s, hm⟩
            intro habs
            rw [habs] at he
            exact he rfl
    | wsStar =>
      intro s n h
      simp only [matchAt] at h
      cases hmm : matchAt ps (s.drop (s.takeWhile isJsWs).length) with
      | none => rw [hmm] at h; cases h
      | some n' =>
        rw [hmm] at h
        simp only [Option.map_some', Option.some.injEq] at h
        obtain ⟨mid', b, hsplit, hlen, hm⟩ := ih _ _ hmm
        refine ⟨s.takeWhile isJsWs ++ mid', b, ?_, ?_, ?_⟩
        · rw [List.append_assoc, ← hsplit]
          exact takeWhile_split isJsWs s
        · simp [hlen, ← h]
          omega
        · exact ⟨s.takeWhile isJsWs, mid', rfl, mem_takeWhile_ws isJsWs s, hm⟩
    | sepOpt =>
      intro s n h
      cases s with
      | nil =>
        simp only [matchAt] at h
        obtain ⟨mid', b, hsplit, hlen, hm⟩ := ih _ _ h
        exact ⟨mid', b, hsplit, hlen, Or.inl hm⟩
      | cons c r =>
        simp only [matchAt] at h
        by_cases hsep : sepClass c = true
        · rw [if_pos hsep] at h
          cases hmm : matchAt ps r with
          | some n' =>
            rw [hmm] at h
            simp only [Option.some.injEq] at h
            obtain ⟨mid', b, hsplit, hlen, hm⟩ := ih _ _ hmm
            refine ⟨c :: mid', b, by rw [hsplit]; rfl, by simp [hlen, ← h], ?_⟩
            exact Or.inr ⟨c, mid', rfl, hsep, hm⟩
          | none =>
            rw [hmm] at h
            obtain ⟨mid', b, hsplit, hlen, hm⟩ := ih _ _ h
            exact ⟨mid', b, hsplit, hlen, Or.inl hm⟩
        · rw [if_neg hsep] at h
          obtain ⟨mid', b, hsplit, hlen, hm⟩ := ih _ _ h
          exact ⟨mid', b, hsplit, hlen, Or.inl hm⟩

/-- An operational match at any position witnesses an occurrence. -/
theorem occursIn_of_matchAt (P : List Tok) (s : List Char) (i : Nat)
    (h : (matchAt P (s.drop i)).isSome = true) : occursIn P s := by
  cases hm : matchAt P (s.drop i) with
  | none => rw [hm] at h; cases h
  | some n =>
    obtain ⟨mid, b, hsplit, -, hmatch⟩ := matchAt_sound P (s.drop i) n hm
    exact ⟨s.take i, mid, b, by rw [List.append_assoc, ← hsplit, List.take_append_drop], hmatch⟩

/-- The fragment text used by the C3 counterexample. -/
def injectionFragmentText : String := ("tool_call api\nkey" : String)

/-- C3 counterexample: sanitizing `"tool_call api\nkey"` yields
`"[removed: tool-call mimic text] api key"`, which still contains an
occurrence of the tool-call pattern (inside the marker itself) and an
occurrence of the api-key pattern (the newline dodged the `[_ -]` class and
was then collapsed to a space), refuting pattern-free output. -/
theorem sanitizeRagText_not_pattern_free :
    String.mk (sanitizeRagText injectionFragmentText.toList) =
      ("[removed: tool-call mimic text] api key" : String) ∧
    occursIn pToolCall (sanitizeRagText injectionFragmentText.toList) ∧
    occursIn pApiKey (sanitizeRagText injectionFragmentText.toList) := by
  refine ⟨by decide, ?_, ?_⟩
  · exact occursIn_of_matchAt pToolCall _ 10 (by decide)
  · exact occursIn_of_matchAt pApiKey _ 32 (by decide)

/-- `canMatchB Q u`: necessary condition for `u` being extendable on the right
to a full match of `Q` (refutes matches that start inside a replacement marker
and continue past its end). -/
def canMatchB : List Tok → List Char → Bool
  | [], u => u.isEmpty
  | .lit L :: ps, u =>
    if u.length ≤ L.length then decide (u.map lcChar = L.take u.length)
    else decide ((u.take L.length).map lcChar = L) && canMatchB ps (u.drop L.length)
  | .wsPlus :: ps, u =>
    match u with
    | [] => true
    | c :: v =>
      isJsWs c &&
        (List.range ((v.takeWhile isJsWs).length + 1)).any fun i => canMatchB ps (v.drop i)
  | .wsStar :: ps, u =>
    (List.range ((u.takeWhile isJsWs).length + 1)).any fun i => canMatchB ps (u.drop i)
  | .sepOpt :: ps, u =>
    match u with
    | [] => true
    | c :: v => canMatchB ps (c :: v) || (sepClass c && canMatchB ps v)

/-- Complete decision procedure for `Matches Q u` (never misses a semantic
match); used to refute occurrences inside concrete marker strings. -/
def matchesB : List Tok → List Char → Bool
  | [], u => u.isEmpty
  | .lit L :: ps, u =>
    decide (L.length ≤ u.length) && decide ((u.take L.length).map lcChar = L) &&
      matchesB ps (u.drop L.length)
  | .wsPlus :: ps, u =>
    match u with
    | [] => false
    | c :: v =>
      isJsWs c &&
        (List.range ((v.takeWhile isJsWs).length + 1)).any fun i => matchesB ps (v.drop i)
  | .wsStar :: ps, u =>
    (List.range ((u.takeWhile isJsWs).length + 1)).any fun i => matchesB ps (u.drop i)
  | .sepOpt :: ps, u =>
    matchesB ps u ||
      match u with
      | c :: v => sepClass c && matchesB ps v
      | [] => false

/-- The token after a whitespace gap is a nonempty literal with a
non-whitespace first character, or the gap ends the pattern. -/
def gapOk : List Tok → Bool
  | [] => true
  | .lit (x :: _) :: _ => !isJsWs x
  | _ => false

/-- Well-formed scrub pattern: every whitespace gap satisfies `gapOk`, which
makes the greedy matcher `matchAt` complete. -/
def wfP : List Tok → Bool
  | [] => true
  | .lit _ :: ps => wfP ps
  | .wsPlus :: ps => gapOk ps && wfP ps
  | .wsStar :: ps => gapOk ps && wfP ps
  | .sepOpt :: ps => wfP ps

/-- No literal of the pattern contains the bracket that opens every
replacement marker. -/
def noBracketLits (Q : List Tok) : Bool :=
  Q.all fun t =>
    match t with
    | .lit L => decide (('[' : Char) ∉ L)
    | _ => true

/-- Every literal character of the pattern is non-whitespace. -/
def litsNonWs (Q : List Tok) : Bool :=
  Q.all fun t =>
    match t with
    | .lit L => L.all fun x => !isJsWs x
    | _ => true

theorem take_append_le {α : Type} (n : Nat) (x y : List α) (h : n ≤ x.length) :
    (x ++ y).take n = x.take n := by
  induction x generalizing n with
  | nil =>
    have hn : n = 0 := Nat.le_zero.mp h
    subst hn; rfl
  | cons a t ih =>
    cases n with
    | zero => rfl
    | succ k =>
      simp only [List.cons_append, List.take_succ_cons]
      rw [ih k (by simpa using h)]

theorem drop_append_le {α : Type} (n : Nat) (x y : List α) (h : n ≤ x.length) :
    (x ++ y).drop n = x.drop n ++ y := by
  induction x generalizing n with
  | nil =>
    have hn : n = 0 := Nat.le_zero.mp h
    subst hn; rfl
  | cons a t ih =>
    cases n with
    | zero => rfl
    | succ k =>
      simp only [List.cons_append, List.drop_succ_cons]
      exact ih k (by simpa using h)

theorem take_append_ge {α : Type} (n : Nat) (x y : List α) (h : x.length ≤ n) :
    (x ++ y).take n = x ++ y.take (n - x.length) := by
  induction x generalizing n with
  | nil => simp
  | cons a t ih =>
    cases n with
    | zero => exact absurd h (by simp)
    | succ k =>
      simp only [List.cons_append, List.take_succ_cons, List.length_cons, Nat.succ_sub_succ]
      rw [ih k (by simpa using h)]

theorem take_len_append {α : Type} (x y : List α) : (x ++ y).take x.length = x := by
  rw [take_append_le x.length x y le_rfl, List.take_length]

theorem drop_len_append {α : Type} (x y : List α) : (x ++ y).drop x.length = y := by
  rw [drop_append_le x.length x y le_rfl, List.drop_length, List.nil_append]

theorem occursIn_append_right (Q : List Tok) (p s : List Char) (h : occursIn Q s) :
    occursIn Q (p ++ s) := by
  obtain ⟨a, mid, b, he, hm⟩ := h
  exact ⟨p ++ a, mid, b, by rw [he]; simp [List.append_assoc], hm⟩

theorem occursIn_append_left (Q : List Tok) (s p : List Char) (h : occursIn Q s) :
    occursIn Q (s ++ p) := by
  obtain ⟨a, mid, b, he, hm⟩ := h
  refine ⟨a, mid, b ++ p, ?_, hm⟩
  rw [he]
  simp [List.append_assoc]

/-- An occurrence in `x ++ y` lies in `x`, lies in `y`, or straddles the
boundary with a nonempty suffix of `x` and a nonempty prefix of `y`. -/
theorem occursIn_append_cases (Q : List Tok) (x y : List Char)
    (h : occursIn Q (x ++ y)) :
    occursIn Q x ∨ occursIn Q y ∨
      ∃ x0 u v y1, x = x0 ++ u ∧ y = v ++ y1 ∧ u ≠ [] ∧ v ≠ [] ∧ Matches Q (u ++ v) := by
  obtain ⟨a, mid, b, he, hm⟩ := h
  have hlen : x.length + y.length = a.length + (mid.length + b.length) := by
    have := congrArg List.length he
    simpa [Nat.add_assoc] using this
  by_cases h1 : a.length + mid.length ≤ x.length
  · left
    have key : x.take (a.length + mid.length) = a ++ mid := by
      have h2 := take_append_le (a.length + mid.length) x y h1
      rw [he] at h2
      rw [← h2]
      have h3 := take_len_append (a ++ mid) b
      rwa [List.length_append] at h3
    refine ⟨a, mid, x.drop (a.length + mid.length), ?_, hm⟩
    conv_lhs => rw [← List.take_append_drop (a.length + mid.length) x]
    rw [key]
  · by_cases h2 : x.length ≤ a.length
    · right; left
      have h3 := drop_len_append x y
      rw [he, drop_append_le x.length (a ++ mid) b
        (by rw [List.length_append]; omega), drop_append_le x.length a mid h2] at h3
      exact ⟨a.drop x.length, mid, b, h3.symm, hm⟩
    · right; right
      have ha : a.length < x.length := Nat.lt_of_not_le h2
      have hb : x.length < a.length + mid.length := Nat.lt_of_not_le h1
      have hsuf : x.drop a.length ++ y = mid ++ b := by
        have h5 := drop_append_le a.length x y (Nat.le_of_lt ha)
        rw [he, drop_append_le a.length (a ++ mid) b
          (by rw [List.length_append]; omega), drop_len_append] at h5
        exact h5.symm
      have hulen : (x.drop a.length).length = x.length - a.length := List.length_drop _ _
      have h6 : (x.drop a.length ++ y).take mid.length = mid := by
        rw [hsuf]
        exact take_len_append mid b
      have humid : mid = x.drop a.length ++ y.take (a.length + mid.length - x.length) := by
        have heq : a.length + mid.length - x.length = mid.length - (x.drop a.length).length := by
          rw [hulen]; omega
        rw [heq, ← take_append_ge mid.length _ y (by rw [hulen]; omega), h6]
      refine ⟨x.take a.length, x.drop a.length, y.take (a.length + mid.length - x.length),
        y.drop (a.length + mid.length - x.length), (List.take_append_drop _ _).symm,
        (List.take_append_drop _ _).symm, ?_, ?_, ?_⟩
      · intro habs
        have h7 : (x.drop a.length).length = 0 := by rw [habs]; rfl
        rw [hulen] at h7
        omega
      · intro habs
        have h7 : (y.take (a.length + mid.length - x.length)).length = 0 := by
          rw [habs]; rfl
        rw [List.length_take] at h7
        omega
      · rw [← humid]; exact hm

theorem lcChar_of_ws {c : Char} (h : isJsWs c = true) : lcChar c = c := by
  simp only [lcChar]
  rw [if_neg]
  rintro ⟨h1, h2⟩
  simp only [isJsWs, Bool.or_eq_true, Bool.and_eq_true, decide_eq_true_eq] at h
  omega

theorem le_takeWhile_of_take {p : Char → Bool} {v : List Char} {i : Nat}
    (hi : i ≤ v.length) (h : ∀ c ∈ v.take i, p c = true) :
    i ≤ (v.takeWhile p).length := by
  induction v generalizing i with
  | nil => simpa using hi
  | cons a t ih =>
    cases i with
    | zero => exact Nat.zero_le _
    | succ k =>
      have hpa : p a = true := h a (by simp [List.take_succ_cons])
      rw [List.takeWhile_cons, hpa]
      simp only [if_true, List.length_cons]
      have hk := ih (i := k) (by simpa using hi)
        (fun c hc => h c (by rw [List.take_succ_cons]; exact List.mem_cons_of_mem a hc))
      omega

theorem takeWhile_append_stop {p : Char → Bool} (w : List Char) (x : Char) (t : List Char)
    (hw : ∀ c ∈ w, p c = true) (hx : p x = false) :
    (w ++ x :: t).takeWhile p = w := by
  induction w with
  | nil => simp [List.takeWhile_cons, hx]
  | cons a w2 ih =>
    have hpa := hw a (List.mem_cons_self a w2)
    simp only [List.cons_append, List.takeWhile_cons, hpa, if_true]
    rw [ih (fun c hc => hw c (List.mem_cons_of_mem a hc))]

/-- `matchesB` never misses a semantic match. -/
theorem matchesB_complete : ∀ (Q : List Tok) (u : List Char),
    Matches Q u → matchesB Q u = true := by
  intro Q
  induction Q with
  | nil =>
    intro u h
    simp only [Matches] at h
    subst h; rfl
  | cons tok ps ih =>
    cases tok with
    | lit L =>
      intro u h
      obtain ⟨l, r, rfl, hl, hm⟩ := h
      have hlen : l.length = L.length := by simpa using congrArg List.length hl
      simp only [matchesB, Bool.and_eq_true, decide_eq_true_eq]
      refine ⟨⟨?_, ?_⟩, ?_⟩
      · rw [List.length_append]; omega
      · rw [← hlen, take_len_append]; exact hl
      · rw [← hlen, drop_len_append]; exact ih r hm
    | wsPlus =>
      intro u h
      obtain ⟨w, r, rfl, hne, hws, hm⟩ := h
      cases w with
      | nil => exact absurd rfl hne
      | cons c w2 =>
        simp only [List.cons_append, matchesB, Bool.and_eq_true]
        refine ⟨hws c (List.mem_cons_self c w2), ?_⟩
        rw [List.any_eq_true]
        have hpre : ∀ d ∈ (w2 ++ r).take w2.length, isJsWs d = true := by
          rw [take_len_append]
          intro d hd
          exact hws d (List.mem_cons_of_mem c hd)
        have hlen : w2.length ≤ ((w2 ++ r).takeWhile isJsWs).length :=
          le_takeWhile_of_take (by rw [List.length_append]; omega) hpre
        refine ⟨w2.length, List.mem_range.mpr (by omega), ?_⟩
        rw [drop_len_append]
        exact ih r hm
    | wsStar =>
      intro u h
      obtain ⟨w, r, rfl, hws, hm⟩ := h
      simp only [matchesB]
      rw [List.any_eq_true]
      have hpre : ∀ d ∈ (w ++ r).take w.length, isJsWs d = true := by
        rw [take_len_append]; exact hws
      have hlen : w.length ≤ ((w ++ r).takeWhile isJsWs).length :=
        le_takeWhile_of_take (by rw [List.length_append]; omega) hpre
      refine ⟨w.length, List.mem_range.mpr (by omega), ?_⟩
      rw [drop_len_append]
      exact ih r hm
    | sepOpt =>
      intro u h
      rcases h with h | ⟨c, r, rfl, hc, hm⟩
      · simp only [matchesB, Bool.or_eq_true]
        exact Or.inl (ih u h)
      · simp only [matchesB, Bool.or_eq_true, Bool.and_eq_true]
        exact Or.inr ⟨hc, ih r hm⟩

theorem canMatchB_nil (P : List Tok) : canMatchB P [] = true := by
  induction P with
  | nil => rfl
  | cons tok ps ih =>
    cases tok with
    | lit L => simp [canMatchB]
    | wsPlus => rfl
    | wsStar => simp [canMatchB, ih]
    | sepOpt => rfl

/-- If `u` extends on the right to a full match of `Q` then `canMatchB Q u`. -/
theorem canMatchB_sound : ∀ (Q : List Tok) (u ext : List Char),
    Matches Q (u ++ ext) → canMatchB Q u = true := by
  intro Q
  induction Q with
  | nil =>
    intro u ext h
    simp only [Matches] at h
    cases u with
    | nil => rfl
    | cons a t => simp at h
  | cons tok ps ih =>
    cases tok with
    | lit L =>
      intro u ext h
      obtain ⟨l, r, he, hl, hm⟩ := h
      have hlL : l.length = L.length := by simpa using congrArg List.length hl
      simp only [canMatchB]
      by_cases hle : u.length ≤ L.length
      · rw [if_pos hle, decide_eq_true_eq]
        have h1 : u = l.take u.length := by
          have h0 := take_len_append u ext
          rw [he, take_append_le u.length l r (by omega)] at h0
          exact h0.symm
        conv_lhs => rw [h1]
        rw [List.map_take, hl]
      · rw [if_neg hle, Bool.and_eq_true, decide_eq_true_eq]
        have hlt : L.length < u.length := Nat.lt_of_not_le hle
        have h1 : u.take L.length = l := by
          have h0 := take_len_append l r
          rw [← he, take_append_le l.length u ext (by omega), hlL] at h0
          exact h0
        have h2 : u.drop L.length ++ ext = r := by
          have h0 := drop_len_append l r
          rw [← he, drop_append_le l.length u ext (by omega), hlL] at h0
          exact h0
        exact ⟨by rw [h1]; exact hl, ih (u.drop L.length) ext (by rw [h2]; exact hm)⟩
    | wsPlus =>
      intro u ext h
      obtain ⟨w, r, he, hwne, hws, hm⟩ := h
      cases u with
      | nil => rfl
      | cons c v =>
        cases w with
        | nil => exact absurd rfl hwne
        | cons d w2 =>
          rw [List.cons_append, List.cons_append] at he
          injection he with h1 hve
          subst h1
          simp only [canMatchB, Bool.and_eq_true]
          refine ⟨hws c (List.mem_cons_self c w2), ?_⟩
          rw [List.any_eq_true]
          by_cases hcase : w2.length ≤ v.length
          · have hvw : v.take w2.length = w2 := by
              have h0 := take_len_append w2 r
              rw [← hve, take_append_le w2.length v ext hcase] at h0
              exact h0
            have hr : v.drop w2.length ++ ext = r := by
              have h0 := drop_len_append w2 r
              rw [← hve, drop_append_le w2.length v ext hcase] at h0
              exact h0
            have hbound : w2.length ≤ (v.takeWhile isJsWs).length := by
              refine le_takeWhile_of_take hcase ?_
              rw [hvw]
              intro x hx
              exact hws x (List.mem_cons_of_mem c hx)
            exact ⟨w2.length, List.mem_range.mpr (by omega),
              ih (v.drop w2.length) ext (by rw [hr]; exact hm)⟩
          · have hvw : v = w2.take v.length := by
              have h0 := take_len_append v ext
              rw [hve, take_append_le v.length w2 r (by omega)] at h0
              exact h0.symm
            have hbound : v.length ≤ (v.takeWhile isJsWs).length := by
              refine le_takeWhile_of_take le_rfl ?_
              rw [List.take_length]
              intro x hx
              have hx2 : x ∈ w2 := by
                rw [hvw] at hx
                exact List.take_subset _ _ hx
              exact hws x (List.mem_cons_of_mem c hx2)
            refine ⟨v.length, List.mem_range.mpr (by omega), ?_⟩
            rw [List.drop_length]
            exact canMatchB_nil ps
    | wsStar =>
      intro u ext h
      obtain ⟨w, r, he, hws, hm⟩ := h
      simp only [canMatchB]
      rw [List.any_eq_true]
      by_cases hcase : w.length ≤ u.length
      · have huw : u.take w.length = w := by
          have h0 := take_len_append w r
          rw [← he, take_append_le w.length u ext hcase] at h0
          exact h0
        have hr : u.drop w.length ++ ext = r := by
          have h0 := drop_len_append w r
          rw [← he, drop_append_le w.length u ext hcase] at h0
          exact h0
        have hbound : w.length ≤ (u.takeWhile isJsWs).length := by
          refine le_takeWhile_of_take hcase ?_
          rw [huw]; exact hws
        exact ⟨w.length, List.mem_range.mpr (by omega),
          ih (u.drop w.length) ext (by rw [hr]; exact hm)⟩
      · have huw : u = w.take u.length := by
          have h0 := take_len_append u ext
          rw [he, take_append_le u.length w r (by omega)] at h0
          exact h0.symm
        have hbound : u.length ≤ (u.takeWhile isJsWs).length := by
          refine le_takeWhile_of_take le_rfl ?_
          rw [List.take_length]
          intro x hx
          have hx2 : x ∈ w := by
            rw [huw] at hx
            exact List.take_subset _ _ hx
          exact hws x hx2
        refine ⟨u.length, List.mem_range.mpr (by omega), ?_⟩
        rw [List.drop_length]
        exact canMatchB_nil ps
    | sepOpt =>
      intro u ext h
      cases u with
      | nil => rfl
      | cons c v =>
        rcases h with h | ⟨c2, r, he, hc, hm⟩
        · simp only [canMatchB, Bool.or_eq_true]
          exact Or.inl (ih (c :: v) ext h)
        · rw [List.cons_append] at he
          injection he with h1 h2
          subst h1
          simp only [canMatchB, Bool.or_eq_true, Bool.and_eq_true]
          exact Or.inr ⟨hc, ih v ext (by rw [h2]; exact hm)⟩

/-- Every character of a match is a (case-folded) literal character, a
whitespace character, or a separator-class character of a `sepOpt` token. -/
theorem matches_mem : ∀ (Q : List Tok) (mid : List Char), Matches Q mid →
    ∀ x ∈ mid, (∃ L, Tok.lit L ∈ Q ∧ lcChar x ∈ L) ∨ isJsWs x = true ∨
      (sepClass x = true ∧ Tok.sepOpt ∈ Q) := by
  intro Q
  induction Q with
  | nil =>
    intro mid h x hx
    simp only [Matches] at h
    subst h
    cases hx
  | cons tok ps ih =>
    cases tok with
    | lit L =>
      intro mid h x hx
      obtain ⟨l, r, rfl, hl, hm⟩ := h
      rcases List.mem_append.mp hx with hxl | hxr
      · exact Or.inl ⟨L, List.mem_cons_self _ _, by rw [← hl]; exact List.mem_map_of_mem lcChar hxl⟩
      · rcases ih r hm x hxr with ⟨L2, hL2, hxL2⟩ | hws | ⟨hs, hsep⟩
        · exact Or.inl ⟨L2, List.mem_cons_of_mem _ hL2, hxL2⟩
        · exact Or.inr (Or.inl hws)
        · exact Or.inr (Or.inr ⟨hs, List.mem_cons_of_mem _ hsep⟩)
    | wsPlus =>
      intro mid h x hx
      obtain ⟨w, r, rfl, hne, hws, hm⟩ := h
      rcases List.mem_append.mp hx with hxw | hxr
      · exact Or.inr (Or.inl (hws x hxw))
      · rcases ih r hm x hxr with ⟨L2, hL2, hxL2⟩ | hws2 | ⟨hs, hsep⟩
        · exact Or.inl ⟨L2, List.mem_cons_of_mem _ hL2, hxL2⟩
        · exact Or.inr (Or.inl hws2)
        · exact Or.inr (Or.inr ⟨hs, List.mem_cons_of_mem _ hsep⟩)
    | wsStar =>
      intro mid h x hx
      obtain ⟨w, r, rfl, hws, hm⟩ := h
      rcases List.mem_append.mp hx with hxw | hxr
      · exact Or.inr (Or.inl (hws x hxw))
      · rcases ih r hm x hxr with ⟨L2, hL2, hxL2⟩ | hws2 | ⟨hs, hsep⟩
        · exact Or.inl ⟨L2, List.mem_cons_of_mem _ hL2, hxL2⟩
        · exact Or.inr (Or.inl hws2)
        · exact Or.inr (Or.inr ⟨hs, List.mem_cons_of_mem _ hsep⟩)
    | sepOpt =>
      intro mid h x hx
      rcases h with h | ⟨c, r, rfl, hc, hm⟩
      · rcases ih mid h x hx with ⟨L2, hL2, hxL2⟩ | hws | ⟨hs, hsep⟩
        · exact Or.inl ⟨L2, List.mem_cons_of_mem _ hL2, hxL2⟩
        · exact Or.inr (Or.inl hws)
        · exact Or.inr (Or.inr ⟨hs, List.mem_cons_of_mem _ hsep⟩)
      · rcases List.mem_cons.mp hx with rfl | hxr
        · exact Or.inr (Or.inr ⟨hc, List.mem_cons_self _ _⟩)
        · rcases ih r hm x hxr with ⟨L2, hL2, hxL2⟩ | hws | ⟨hs, hsep⟩
          · exact Or.inl ⟨L2, List.mem_cons_of_mem _ hL2, hxL2⟩
          · exact Or.inr (Or.inl hws)
          · exact Or.inr (Or.inr ⟨hs, List.mem_cons_of_mem _ hsep⟩)

/-- For well-formed patterns the greedy matcher never misses: a semantic match
at the head of a string is found operationally. -/
theorem matchAt_complete : ∀ (Q : List Tok), wfP Q = true →
    ∀ (mid z : List Char), Matches Q mid → (matchAt Q (mid ++ z)).isSome = true := by
  intro Q
  induction Q with
  | nil => intro _ mid z _; rfl
  | cons tok ps ih =>
    cases tok with
    | lit L =>
      intro hwf mid z h
      obtain ⟨l, r, rfl, hl, hm⟩ := h
      have hwf2 : wfP ps = true := hwf
      have hlen : l.length = L.length := by simpa using congrArg List.length hl
      rw [List.append_assoc]
      simp only [matchAt]
      rw [if_pos (by rw [← hlen, take_len_append]; exact hl)]
      rw [← hlen, drop_len_append]
      rcases Option.isSome_iff_exists.mp (ih hwf2 r z hm) with ⟨n, hn⟩
      rw [hn]
      rfl
    | wsPlus =>
      intro hwf mid z h
      obtain ⟨w, r, rfl, hwne, hws, hm⟩ := h
      simp only [wfP, Bool.and_eq_true] at hwf
      obtain ⟨hgap, hwf2⟩ := hwf
      rw [List.append_assoc]
      simp only [matchAt]
      cases hps : ps with
      | nil =>
        rw [hps] at hm
        simp only [Matches] at hm
        subst hm
        cases w with
        | nil => exact absurd rfl hwne
        | cons c w2 =>
          simp only [List.nil_append, List.cons_append, List.takeWhile_cons,
            hws c (List.mem_cons_self c w2), if_true]
          simp [matchAt]
      | cons tok2 ps2 =>
        have hlit : ∃ x L2 ps3, ps = Tok.lit (x :: L2) :: ps3 ∧ isJsWs x = false := by
          rw [hps] at hgap
          cases tok2 with
          | lit L =>
            cases L with
            | nil => simp [gapOk] at hgap
            | cons x L2 =>
              refine ⟨x, L2, ps2, hps, ?_⟩
              simp only [gapOk, Bool.not_eq_true'] at hgap
              exact hgap
          | wsPlus => simp [gapOk] at hgap
          | wsStar => simp [gapOk] at hgap
          | sepOpt => simp [gapOk] at hgap
        obtain ⟨x, L2, ps3, hps2, hx⟩ := hlit
        have hr : ∃ y rt, r = y :: rt ∧ isJsWs y = false := by
          rw [hps2] at hm
          obtain ⟨l, r2, hr2, hl, _⟩ := hm
          cases l with
          | nil => simp at hl
          | cons y l2 =>
            refine ⟨y, l2 ++ r2, by rw [hr2]; rfl, ?_⟩
            have hlcy : lcChar y = x := by
              rw [List.map_cons] at hl
              exact (List.cons.injEq _ _ _ _).mp hl |>.1
            by_contra hyw
            rw [Bool.not_eq_false] at hyw
            rw [lcChar_of_ws hyw] at hlcy
            rw [hlcy] at hyw
            rw [hyw] at hx
            cases hx
        obtain ⟨y, rt, hry, hy⟩ := hr
        have htw : (w ++ (r ++ z)).takeWhile isJsWs = w := by
          rw [hry, List.cons_append]
          exact takeWhile_append_stop w y (rt ++ z) hws hy
        rw [htw]
        have hie : w.isEmpty = false := by
          cases w with
          | nil => exact absurd rfl hwne
          | cons c w2 => rfl
        rw [hie]
        simp only [Bool.false_eq_true, if_false, drop_len_append]
        rcases Option.isSome_iff_exists.mp (ih hwf2 r z hm) with ⟨n, hn⟩
        rw [← hps, hn]
        rfl
    | wsStar =>
      intro hwf mid z h
      obtain ⟨w, r, rfl, hws, hm⟩ := h
      simp only [wfP, Bool.and_eq_true] at hwf
      obtain ⟨hgap, hwf2⟩ := hwf
      rw [List.append_assoc]
      simp only [matchAt]
      cases hps : ps with
      | nil =>
        rw [hps] at hm
        simp only [Matches] at hm
        subst hm
        simp [matchAt]
      | cons tok2 ps2 =>
        have hlit : ∃ x L2 ps3, ps = Tok.lit (x :: L2) :: ps3 ∧ isJsWs x = false := by
          rw [hps] at hgap
          cases tok2 with
          | lit L =>
            cases L with
            | nil => simp [gapOk] at hgap
            | cons x L2 =>
              refine ⟨x, L2, ps2, hps, ?_⟩
              simp only [gapOk, Bool.not_eq_true'] at hgap
              exact hgap
          | wsPlus => simp [gapOk] at hgap
          | wsStar => simp [gapOk] at hgap
          | sepOpt => simp [gapOk] at hgap
        obtain ⟨x, L2, ps3, hps2, hx⟩ := hlit
        have hr : ∃ y rt, r = y :: rt ∧ isJsWs y = false := by
          rw [hps2] at hm
          obtain ⟨l, r2, hr2, hl, _⟩ := hm
          cases l with
          | nil => simp at hl
          | cons y l2 =>
            refine ⟨y, l2 ++ r2, by rw [hr2]; rfl, ?_⟩
            have hlcy : lcChar y = x := by
              rw [List.map_cons] at hl
              exact (List.cons.injEq _ _ _ _).mp hl |>.1
            by_contra hyw
            rw [Bool.not_eq_false] at hyw
            rw [lcChar_of_ws hyw] at hlcy
            rw [hlcy] at hyw
            rw [hyw] at hx
            cases hx
        obtain ⟨y, rt, hry, hy⟩ := hr
        have htw : (w ++ (r ++ z)).takeWhile isJsWs = w := by
          rw [hry, List.cons_append]
          exact takeWhile_append_stop w y (rt ++ z) hws hy
        rw [htw, drop_len_append]
        rcases Option.isSome_iff_exists.mp (ih hwf2 r z hm) with ⟨n, hn⟩
        rw [← hps, hn]
        rfl
    | sepOpt =>
      intro hwf mid z h
      have hwf2 : wfP ps = true := hwf
      rcases h with h | ⟨c, r, rfl, hc, hm⟩
      · have hS := ih hwf2 mid z h
        cases hE : mid ++ z with
        | nil =>
          rw [hE] at hS
          simpa [matchAt] using hS
        | cons c rest =>
          rw [hE] at hS
          simp only [matchAt]
          by_cases hsep : sepClass c = true
          · rw [if_pos hsep]
            cases hrest : matchAt ps rest with
            | some n => rfl
            | none => exact hS
          · rw [if_neg hsep]
            exact hS
      · have hS := ih hwf2 r z hm
        simp only [matchAt, List.cons_append]
        rw [if_pos hc]
        rcases Option.isSome_iff_exists.mp hS with ⟨n, hn⟩
        rw [hn]
        rfl

/-- The output of the global-replace scan: contiguous emitted segments of the
input alternating with copies of the marker, each marker replacing a deleted
segment of the input. -/
inductive Alt (m : List Char) : List Char → List Char → Prop
  | last (s : List Char) : Alt m s s
  | seg (e d s out : List Char) (h : Alt m s out) : Alt m (e ++ (d ++ s)) (e ++ (m ++ out))

theorem alt_cons {m : List Char} {s out : List Char} (c : Char) (h : Alt m s out) :
    Alt m (c :: s) (c :: out) := by
  cases h with
  | last s => exact Alt.last (c :: s)
  | seg e d s2 out2 h2 =>
    have h3 := Alt.seg (c :: e) d s2 out2 h2
    simpa using h3

theorem repAux_alt (P : List Tok) (m : List Char) :
    ∀ (fuel : Nat) (s : List Char), Alt m s (repAux P m fuel s) := by
  intro fuel
  induction fuel with
  | zero =>
    intro s
    cases s with
    | nil => exact Alt.last []
    | cons c rest => exact Alt.last (c :: rest)
  | succ fuel ih =>
    intro s
    cases s with
    | nil => exact Alt.last []
    | cons c rest =>
      simp only [repAux]
      cases hma : matchAt P (c :: rest) with
      | none => exact alt_cons c (ih rest)
      | some n =>
        cases n with
        | zero => exact alt_cons c (ih rest)
        | succ k =>
          have h0 := Alt.seg [] ((c :: rest).take (k + 1)) (rest.drop k)
            (repAux P m fuel (rest.drop k)) (ih (rest.drop k))
          simp only [List.nil_append] at h0
          have heq : (c :: rest).take (k + 1) ++ rest.drop k = c :: rest := by
            have h1 : rest.drop k = (c :: rest).drop (k + 1) := rfl
            rw [h1, List.take_append_drop]
          rw [← heq]
          exact h0

theorem no_marker_occ (Q : List Tok) (m : List Char)
    (Hnil : matchesB Q [] = false)
    (Hocc : ∀ j, j < m.length → ∀ k, k < m.length →
      matchesB Q ((m.drop j).take (k + 1)) = false) :
    ¬ occursIn Q m := by
  rintro ⟨a, mid, b, he, hm⟩
  have hB := matchesB_complete Q mid hm
  cases hmid : mid with
  | nil =>
    rw [hmid] at hB
    rw [hB] at Hnil
    cases Hnil
  | cons c midt =>
    have hlen : a.length + mid.length + b.length = m.length := by
      have h1 := congrArg List.length he
      simp only [List.length_append] at h1
      omega
    have hmid_eq : (m.drop a.length).take mid.length = mid := by
      rw [he, List.append_assoc, drop_len_append, take_len_append]
    have hmlen : 0 < mid.length := by rw [hmid]; simp
    have hF := Hocc a.length (by omega) (mid.length - 1) (by omega)
    have hrw : mid.length - 1 + 1 = mid.length := by omega
    rw [hrw, hmid_eq, hB] at hF
    cases hF

theorem matches_no_bracket (Q : List Tok) (Hbr : noBracketLits Q = true)
    {mid : List Char} (hm : Matches Q mid) : ('[' : Char) ∉ mid := by
  intro hmem
  rcases matches_mem Q mid hm '[' hmem with ⟨L, hL, hxL⟩ | hws | ⟨hs, _⟩
  · have hlc : lcChar '[' = '[' := by decide
    rw [hlc] at hxL
    have hf := List.all_eq_true.mp Hbr (Tok.lit L) hL
    simp only [decide_eq_true_eq] at hf
    exact hf hxL
  · exact absurd hws (by decide)
  · exact absurd hs (by decide)

theorem marker_straddle_false (Q : List Tok) (m : List Char)
    (Hcan : ∀ j, j < m.length → canMatchB Q (m.drop j) = false)
    {x0 u v : List Char} (hxu : m = x0 ++ u) (hu : u ≠ [])
    (hm2 : Matches Q (u ++ v)) : False := by
  have huv : u = m.drop x0.length := by
    rw [hxu, drop_len_append]
  have hul : 0 < u.length := List.length_pos.mpr hu
  have hj : x0.length < m.length := by
    have h1 := congrArg List.length hxu
    rw [List.length_append] at h1
    omega
  have hcan := canMatchB_sound Q u v hm2
  rw [huv] at hcan
  rw [Hcan x0.length hj] at hcan
  cases hcan

/-- A global replace whose marker opens with `[` and cannot host or seed the
pattern `Q` never creates a `Q`-occurrence: any occurrence in the output pulls
back to one in the input. -/
theorem alt_pullback (Q : List Tok) (m : List Char)
    (Hnil : matchesB Q [] = false)
    (Hocc : ∀ j, j < m.length → ∀ k, k < m.length →
      matchesB Q ((m.drop j).take (k + 1)) = false)
    (Hcan : ∀ j, j < m.length → canMatchB Q (m.drop j) = false)
    (Hhead : m.take 1 = ['['])
    (Hbr : noBracketLits Q = true) :
    ∀ {s out : List Char}, Alt m s out → occursIn Q out → occursIn Q s := by
  intro s out halt
  induction halt with
  | last s2 => exact id
  | seg e d s2 out2 h2 ih =>
    intro hocc
    rcases occursIn_append_cases Q e (m ++ out2) hocc with hE | hMO |
      ⟨x0, u, v, y1, hxu, hvy, hu, hv, hm2⟩
    · exact occursIn_append_left Q e (d ++ s2) hE
    · rcases occursIn_append_cases Q m out2 hMO with hM | hOut |
        ⟨x0, u, v, y1, hxu, hvy, hu, hv, hm2⟩
      · exact absurd hM (no_marker_occ Q m Hnil Hocc)
      · exact occursIn_append_right Q e _ (occursIn_append_right Q d s2 (ih hOut))
      · exact absurd (marker_straddle_false Q m Hcan hxu hu hm2) id
    · -- occurrence starts in the emitted segment and crosses into the marker
      exfalso
      cases hmm : m with
      | nil => rw [hmm] at Hhead; cases Hhead
      | cons c mt =>
        have hc : c = '[' := by
          rw [hmm] at Hhead
          simp only [List.take_succ_cons, List.take_zero] at Hhead
          exact (List.cons.injEq _ _ _ _).mp Hhead |>.1
        rw [hmm, hc] at hvy
        cases hvv : v with
        | nil => exact hv hvv
        | cons c2 vt =>
          rw [hvv, List.cons_append, List.cons_append] at hvy
          have hc2 : c2 = '[' := ((List.cons.injEq _ _ _ _).mp hvy).1.symm
          have hbr := matches_no_bracket Q Hbr hm2
          apply hbr
          rw [List.mem_append]
          right
          rw [hvv, hc2]
          exact List.mem_cons_self _ _

/-- Output shape of a self-scrub: as `Alt`, but additionally no match of `Q`
starts at any emitted position (with its original right context). -/
inductive SAlt (Q : List Tok) (m : List Char) : List Char → List Char → Prop
  | nil : SAlt Q m [] []
  | tail (e : List Char) (he : ∀ i, i < e.length → matchAt Q (e.drop i) = none) :
      SAlt Q m e e
  | seg (e d s out : List Char)
      (he : ∀ i, i < e.length → matchAt Q (e.drop i ++ (d ++ s)) = none)
      (h : SAlt Q m s out) : SAlt Q m (e ++ (d ++ s)) (e ++ (m ++ out))

theorem salt_cons {Q : List Tok} {m : List Char} {s out : List Char} {c : Char}
    (hnone : matchAt Q (c :: s) = none) (h : SAlt Q m s out) :
    SAlt Q m (c :: s) (c :: out) := by
  revert hnone
  induction h with
  | nil =>
    intro hnone
    refine SAlt.tail [c] ?_
    intro i hi
    cases i with
    | zero => exact hnone
    | succ j => simp at hi
  | tail e he =>
    intro hnone
    refine SAlt.tail (c :: e) ?_
    intro i hi
    cases i with
    | zero => exact hnone
    | succ j =>
      rw [List.drop_succ_cons]
      exact he j (by simpa using hi)
  | seg e d s2 out2 he h2 ih =>
    intro hnone
    have hhe : ∀ i, i < (c :: e).length →
        matchAt Q ((c :: e).drop i ++ (d ++ s2)) = none := by
      intro i hi
      cases i with
      | zero => simpa using hnone
      | succ j =>
        rw [List.drop_succ_cons]
        exact he j (by simpa using hi)
    have h3 := SAlt.seg (c :: e) d s2 out2 hhe h2
    simpa using h3

theorem repAux_salt (Q : List Tok) (m : List Char) (Hnil : matchesB Q [] = false) :
    ∀ (fuel : Nat) (s : List Char), s.length ≤ fuel → SAlt Q m s (repAux Q m fuel s) := by
  intro fuel
  induction fuel with
  | zero =>
    intro s hle
    have hs : s = [] := List.eq_nil_of_length_eq_zero (Nat.le_zero.mp hle)
    subst hs
    exact SAlt.nil
  | succ fuel ih =>
    intro s hle
    cases s with
    | nil => exact SAlt.nil
    | cons c rest =>
      simp only [List.length_cons] at hle
      simp only [repAux]
      cases hma : matchAt Q (c :: rest) with
      | none => exact salt_cons hma (ih rest (by omega))
      | some n =>
        cases n with
        | zero =>
          exfalso
          obtain ⟨mid, b, hsplit, hlen, hm⟩ := matchAt_sound Q (c :: rest) 0 hma
          have hmid : mid = [] := List.eq_nil_of_length_eq_zero hlen
          rw [hmid] at hm
          have hB := matchesB_complete Q [] hm
          rw [hB] at Hnil
          cases Hnil
        | succ k =>
          have hanon : ∀ i, i < ([] : List Char).length →
              matchAt Q (([] : List Char).drop i ++
                ((c :: rest).take (k + 1) ++ rest.drop k)) = none := by
            intro i hi
            simp at hi
          have hrec := ih (rest.drop k) (by simp only [List.length_drop]; omega)
          have h0 := SAlt.seg [] ((c :: rest).take (k + 1)) (rest.drop k)
            (repAux Q m fuel (rest.drop k)) hanon hrec
          simp only [List.nil_append] at h0
          have heq : (c :: rest).take (k + 1) ++ rest.drop k = c :: rest := by
            have h1 : rest.drop k = (c :: rest).drop (k + 1) := rfl
            rw [h1, List.take_append_drop]
          rw [← heq]
          exact h0

theorem salt_no_occ (Q : List Tok) (m : List Char)
    (Hwf : wfP Q = true)
    (Hnil : matchesB Q [] = false)
    (Hocc : ∀ j, j < m.length → ∀ k, k < m.length →
      matchesB Q ((m.drop j).take (k + 1)) = false)
    (Hcan : ∀ j, j < m.length → canMatchB Q (m.drop j) = false)
    (Hhead : m.take 1 = ['['])
    (Hbr : noBracketLits Q = true) :
    ∀ {s out : List Char}, SAlt Q m s out → ¬ occursIn Q out := by
  intro s out halt
  induction halt with
  | nil =>
    rintro ⟨a, mid, b, he, hm⟩
    have h1 := he.symm
    simp only [List.append_eq_nil] at h1
    rw [h1.1.2] at hm
    have hB := matchesB_complete Q [] hm
    rw [hB] at Hnil
    cases Hnil
  | tail e he =>
    rintro ⟨a, mid, b, hsplit, hm⟩
    cases hmid : mid with
    | nil =>
      rw [hmid] at hm
      have hB := matchesB_complete Q [] hm
      rw [hB] at Hnil
      cases Hnil
    | cons c midt =>
      have hlen : a.length + mid.length + b.length = e.length := by
        have h1 := congrArg List.length hsplit
        simp only [List.length_append] at h1
        omega
      have hmlen : 0 < mid.length := by rw [hmid]; simp
      have hdrop : e.drop a.length = mid ++ b := by
        rw [hsplit, List.append_assoc, drop_len_append]
      have hC := matchAt_complete Q Hwf mid b hm
      rw [← hdrop, he a.length (by omega)] at hC
      simp at hC
  | seg e d s2 out2 he h2 ih =>
    intro hocc
    rcases occursIn_append_cases Q e (m ++ out2) hocc with hE | hMO |
      ⟨x0, u, v, y1, hxu, hvy, hu, hv, hm2⟩
    · obtain ⟨a, mid, b, hsplit, hm⟩ := hE
      cases hmid : mid with
      | nil =>
        rw [hmid] at hm
        have hB := matchesB_complete Q [] hm
        rw [hB] at Hnil
        cases Hnil
      | cons c midt =>
        have hlen : a.length + mid.length + b.length = e.length := by
          have h1 := congrArg List.length hsplit
          simp only [List.length_append] at h1
          omega
        have hmlen : 0 < mid.length := by rw [hmid]; simp
        have hdrop : e.drop a.length = mid ++ b := by
          rw [hsplit, List.append_assoc, drop_len_append]
        have hC := matchAt_complete Q Hwf mid (b ++ (d ++ s2)) hm
        have heq : e.drop a.length ++ (d ++ s2) = mid ++ (b ++ (d ++ s2)) := by
          rw [hdrop, List.append_assoc]
        rw [← heq, he a.length (by omega)] at hC
        simp at hC
    · rcases occursIn_append_cases Q m out2 hMO with hM | hOut |
        ⟨x0, u, v, y1, hxu, hvy, hu, hv, hm2⟩
      · exact absurd hM (no_marker_occ Q m Hnil Hocc)
      · exact ih hOut
      · exact marker_straddle_false Q m Hcan hxu hu hm2
    · cases hmm : m with
      | nil => rw [hmm] at Hhead; cases Hhead
      | cons c mt =>
        have hc : c = '[' := by
          rw [hmm] at Hhead
          simp only [List.take_succ_cons, List.take_zero] at Hhead
          exact (List.cons.injEq _ _ _ _).mp Hhead |>.1
        rw [hmm, hc] at hvy
        cases hvv : v with
        | nil => exact hv hvv
        | cons c2 vt =>
          rw [hvv, List.cons_append, List.cons_append] at hvy
          have hc2 : c2 = '[' := ((List.cons.injEq _ _ _ _).mp hvy).1.symm
          have hbr := matches_no_bracket Q Hbr hm2
          apply hbr
          rw [List.mem_append]
          right
          rw [hvv, hc2]
          exact List.mem_cons_self _ _

/-- `replaceAll P m` never creates a `Q`-occurrence (markers cannot host or
seed `Q`): occurrences in its output pull back to the input. -/
theorem replaceAll_no_create (Q P : List Tok) (m : List Char)
    (Hnil : matchesB Q [] = false)
    (Hocc : ∀ j, j < m.length → ∀ k, k < m.length →
      matchesB Q ((m.drop j).take (k + 1)) = false)
    (Hcan : ∀ j, j < m.length → canMatchB Q (m.drop j) = false)
    (Hhead : m.take 1 = ['['])
    (Hbr : noBracketLits Q = true)
    (s : List Char) (h : occursIn Q (replaceAll P m s)) : occursIn Q s :=
  alt_pullback Q m Hnil Hocc Hcan Hhead Hbr (repAux_alt P m s.length s) h

/-- Scrubbing a pattern with a marker that cannot host or seed it removes
every occurrence of the pattern. -/
theorem replaceAll_self_scrub (Q : List Tok) (m : List Char)
    (Hwf : wfP Q = true)
    (Hnil : matchesB Q [] = false)
    (Hocc : ∀ j, j < m.length → ∀ k, k < m.length →
      matchesB Q ((m.drop j).take (k + 1)) = false)
    (Hcan : ∀ j, j < m.length → canMatchB Q (m.drop j) = false)
    (Hhead : m.take 1 = ['['])
    (Hbr : noBracketLits Q = true)
    (s : List Char) : ¬ occursIn Q (replaceAll Q m s) :=
  salt_no_occ Q m Hwf Hnil Hocc Hcan Hhead Hbr (repAux_salt Q m Hnil s.length s le_rfl)

/-- Correspondence between a string and its whitespace-collapsed form: each
non-whitespace character is copied, each nonempty whitespace run becomes one
space. -/
inductive WsCorr : List Char → List Char → Prop
  | nil : WsCorr [] []
  | char (c : Char) (s t : List Char) (hc : isJsWs c = false) (h : WsCorr s t) :
      WsCorr (c :: s) (c :: t)
  | run (d : List Char) (s t : List Char) (hd : d ≠ [])
      (hw : ∀ x ∈ d, isJsWs x = true) (h : WsCorr s t) : WsCorr (d ++ s) (' ' :: t)

theorem wsCorr_repAux : ∀ (fuel : Nat) (s : List Char), s.length ≤ fuel →
    WsCorr s (repAux [Tok.wsPlus] [' '] fuel s) := by
  intro fuel
  induction fuel with
  | zero =>
    intro s hle
    have hs : s = [] := List.eq_nil_of_length_eq_zero (Nat.le_zero.mp hle)
    subst hs
    exact WsCorr.nil
  | succ fuel ih =>
    intro s hle
    cases s with
    | nil => exact WsCorr.nil
    | cons c rest =>
      simp only [List.length_cons] at hle
      simp only [repAux]
      by_cases hc : isJsWs c = true
      · have hma : matchAt [Tok.wsPlus] (c :: rest) =
            some ((rest.takeWhile isJsWs).length + 1) := by
          simp [matchAt, List.takeWhile_cons, hc]
        rw [hma]
        have hrec := ih (rest.drop (rest.takeWhile isJsWs).length)
          (by simp only [List.length_drop]; omega)
        have heq : (c :: rest.takeWhile isJsWs) ++
            rest.drop (rest.takeWhile isJsWs).length = c :: rest := by
          rw [List.cons_append]
          congr 1
          exact (takeWhile_split isJsWs rest).symm
        rw [← heq]
        refine WsCorr.run (c :: rest.takeWhile isJsWs) _ _ (by simp) ?_ hrec
        intro x hx
        rcases List.mem_cons.mp hx with rfl | hx2
        · exact hc
        · exact mem_takeWhile_ws isJsWs rest x hx2
      · have hma : matchAt [Tok.wsPlus] (c :: rest) = none := by
          simp only [Bool.not_eq_true] at hc
          simp [matchAt, List.takeWhile_cons, hc]
        rw [hma]
        simp only [Bool.not_eq_true] at hc
        exact WsCorr.char c rest _ hc (ih rest (by omega))

/-- A cut of the collapsed string induces a cut of the original. -/
theorem wscorr_split {s t : List Char} (h : WsCorr s t) :
    ∀ (t1 t2 : List Char), t = t1 ++ t2 →
      ∃ s1 s2, s = s1 ++ s2 ∧ WsCorr s2 t2 := by
  induction h with
  | nil =>
    intro t1 t2 he
    have h1 := he.symm
    simp only [List.append_eq_nil] at h1
    exact ⟨[], [], rfl, by rw [h1.2]; exact WsCorr.nil⟩
  | char c s t hc h ih =>
    intro t1 t2 he
    cases t1 with
    | nil =>
      refine ⟨[], c :: s, rfl, ?_⟩
      have h2 : t2 = c :: t := by simpa using he.symm
      rw [h2]
      exact WsCorr.char c s t hc h
    | cons a t1b =>
      rw [List.cons_append] at he
      injection he with h1 h2
      obtain ⟨s1, s2, rfl, h3⟩ := ih t1b t2 h2
      exact ⟨c :: s1, s2, rfl, h3⟩
  | run d s t hd hw h ih =>
    intro t1 t2 he
    cases t1 with
    | nil =>
      refine ⟨[], d ++ s, rfl, ?_⟩
      have h2 : t2 = ' ' :: t := by simpa using he.symm
      rw [h2]
      exact WsCorr.run d s t hd hw h
    | cons a t1b =>
      rw [List.cons_append] at he
      injection he with h1 h2
      obtain ⟨s1, s2, hse, h3⟩ := ih t1b t2 h2
      exact ⟨d ++ s1, s2, by rw [hse, List.append_assoc], h3⟩

/-- Pull a run of non-whitespace characters at the head of the collapsed
string back to the original. -/
theorem wscorr_lit_pull {s t : List Char} (h : WsCorr s t) :
    ∀ (l t2 : List Char), t = l ++ t2 → (∀ x ∈ l, isJsWs x = false) →
      ∃ s2, s = l ++ s2 ∧ WsCorr s2 t2 := by
  induction h with
  | nil =>
    intro l t2 he _
    have h1 := he.symm
    simp only [List.append_eq_nil] at h1
    refine ⟨[], by rw [h1.1]; rfl, ?_⟩
    rw [h1.2]
    exact WsCorr.nil
  | char c s t hc h ih =>
    intro l t2 he hl
    cases l with
    | nil =>
      refine ⟨c :: s, rfl, ?_⟩
      have h2 : t2 = c :: t := by simpa using he.symm
      rw [h2]
      exact WsCorr.char c s t hc h
    | cons a lb =>
      rw [List.cons_append] at he
      injection he with h1 h2
      obtain ⟨s2, rfl, h3⟩ := ih lb t2 h2
        (fun x hx => hl x (List.mem_cons_of_mem a hx))
      exact ⟨s2, by rw [h1, List.cons_append], h3⟩
  | run d s t hd hw h ih =>
    intro l t2 he hl
    cases l with
    | nil =>
      refine ⟨d ++ s, rfl, ?_⟩
      have h2 : t2 = ' ' :: t := by simpa using he.symm
      rw [h2]
      exact WsCorr.run d s t hd hw h
    | cons a lb =>
      rw [List.cons_append] at he
      injection he with h1 h2
      exfalso
      have ha := hl a (List.mem_cons_self a lb)
      rw [← h1] at ha
      exact absurd ha (by decide)

/-- Pull a run of whitespace at the head of the collapsed string back to a
whitespace run of the original. -/
theorem wscorr_ws_pull {s t : List Char} (h : WsCorr s t) :
    ∀ (w t2 : List Char), t = w ++ t2 → (∀ x ∈ w, isJsWs x = true) →
      ∃ ds s2, s = ds ++ s2 ∧ (∀ x ∈ ds, isJsWs x = true) ∧
        (w ≠ [] → ds ≠ []) ∧ WsCorr s2 t2 := by
  induction h with
  | nil =>
    intro w t2 he _
    have h1 := he.symm
    simp only [List.append_eq_nil] at h1
    refine ⟨[], [], rfl, ?_, ?_, ?_⟩
    · intro x hx
      cases hx
    · intro hne
      exact absurd h1.1 hne
    · rw [h1.2]
      exact WsCorr.nil
  | char c s t hc h ih =>
    intro w t2 he hw2
    cases w with
    | nil =>
      refine ⟨[], c :: s, rfl, ?_, ?_, ?_⟩
      · intro x hx
        cases hx
      · intro hne
        exact absurd rfl hne
      · have h2 : t2 = c :: t := by simpa using he.symm
        rw [h2]
        exact WsCorr.char c s t hc h
    | cons a wb =>
      rw [List.cons_append] at he
      injection he with h1 h2
      exfalso
      have ha := hw2 a (List.mem_cons_self a wb)
      rw [← h1] at ha
      rw [ha] at hc
      cases hc
  | run d s t hd hw h ih =>
    intro w t2 he hw2
    cases w with
    | nil =>
      refine ⟨[], d ++ s, rfl, ?_, ?_, ?_⟩
      · intro x hx
        cases hx
      · intro hne
        exact absurd rfl hne
      · have h2 : t2 = ' ' :: t := by simpa using he.symm
        rw [h2]
        exact WsCorr.run d s t hd hw h
    | cons a wb =>
      rw [List.cons_append] at he
      injection he with h1 h2
      obtain ⟨ds, s2, hse, hdsw, _, h3⟩ := ih wb t2 h2
        (fun x hx => hw2 x (List.mem_cons_of_mem a hx))
      refine ⟨d ++ ds, s2, by rw [hse, List.append_assoc], ?_, ?_, h3⟩
      · intro x hx
        rcases List.mem_append.mp hx with hx2 | hx2
        · exact hw x hx2
        · exact hdsw x hx2
      · intro _ habs
        rcases d with _ | ⟨d0, db⟩
        · exact hd rfl
        · simp at habs

/-- A pattern match at the head of the collapsed string transfers to a match
at the head of the original (patterns without separator tokens and with
non-whitespace literals). -/
theorem wscorr_swm : ∀ (Q : List Tok), Tok.sepOpt ∉ Q → litsNonWs Q = true →
    ∀ (s t : List Char), WsCorr s t →
    ∀ (midt bt : List Char), t = midt ++ bt → Matches Q midt →
    ∃ mids bs, s = mids ++ bs ∧ Matches Q mids := by
  intro Q
  induction Q with
  | nil =>
    intro _ _ s t hcorr midt bt he hm
    simp only [Matches] at hm
    exact ⟨[], s, rfl, rfl⟩
  | cons tok ps ih =>
    cases tok with
    | lit L =>
      intro hsep hnw s t hcorr midt bt he hm
      have hsep2 : Tok.sepOpt ∉ ps := fun hmem => hsep (List.mem_cons_of_mem _ hmem)
      have hnw2 : litsNonWs ps = true := by
        simp only [litsNonWs, List.all_cons, Bool.and_eq_true] at hnw
        exact hnw.2
      have hLnw : ∀ x ∈ L, isJsWs x = false := by
        simp only [litsNonWs, List.all_cons, Bool.and_eq_true] at hnw
        intro x hx
        have hx2 := List.all_eq_true.mp hnw.1 x hx
        simpa using hx2
      obtain ⟨l, r, rfl, hl, hm2⟩ := hm
      have hall : ∀ x ∈ l, isJsWs x = false := by
        intro x hx
        by_contra habs
        rw [Bool.not_eq_false] at habs
        have hlc : lcChar x ∈ L := by
          rw [← hl]
          exact List.mem_map_of_mem lcChar hx
        have hfalse := hLnw (lcChar x) hlc
        rw [lcChar_of_ws habs] at hfalse
        rw [hfalse] at habs
        cases habs
      rw [List.append_assoc] at he
      obtain ⟨s2, hs2, hcorr2⟩ := wscorr_lit_pull hcorr l (r ++ bt) he hall
      obtain ⟨mids2, bs, hs2e, hm3⟩ := ih hsep2 hnw2 s2 (r ++ bt) hcorr2 r bt rfl hm2
      exact ⟨l ++ mids2, bs, by rw [hs2, hs2e, List.append_assoc], l, mids2, rfl, hl, hm3⟩
    | wsPlus =>
      intro hsep hnw s t hcorr midt bt he hm
      have hsep2 : Tok.sepOpt ∉ ps := fun hmem => hsep (List.mem_cons_of_mem _ hmem)
      have hnw2 : litsNonWs ps = true := by
        simp only [litsNonWs, List.all_cons, Bool.and_eq_true] at hnw
        exact hnw.2
      obtain ⟨w, r, rfl, hwne, hws, hm2⟩ := hm
      rw [List.append_assoc] at he
      obtain ⟨ds, s2, hs2, hdsw, hdne, hcorr2⟩ := wscorr_ws_pull hcorr w (r ++ bt) he hws
      obtain ⟨mids2, bs, hs2e, hm3⟩ := ih hsep2 hnw2 s2 (r ++ bt) hcorr2 r bt rfl hm2
      exact ⟨ds ++ mids2, bs, by rw [hs2, hs2e, List.append_assoc],
        ds, mids2, rfl, hdne hwne, hdsw, hm3⟩
    | wsStar =>
      intro hsep hnw s t hcorr midt bt he hm
      have hsep2 : Tok.sepOpt ∉ ps := fun hmem => hsep (List.mem_cons_of_mem _ hmem)
      have hnw2 : litsNonWs ps = true := by
        simp only [litsNonWs, List.all_cons, Bool.and_eq_true] at hnw
        exact hnw.2
      obtain ⟨w, r, rfl, hws, hm2⟩ := hm
      rw [List.append_assoc] at he
      obtain ⟨ds, s2, hs2, hdsw, _, hcorr2⟩ := wscorr_ws_pull hcorr w (r ++ bt) he hws
      obtain ⟨mids2, bs, hs2e, hm3⟩ := ih hsep2 hnw2 s2 (r ++ bt) hcorr2 r bt rfl hm2
      exact ⟨ds ++ mids2, bs, by rw [hs2, hs2e, List.append_assoc],
        ds, mids2, rfl, hdsw, hm3⟩
    | sepOpt =>
      intro hsep _ _ _ _ _ _ _ _
      exact absurd (List.mem_cons_self _ _) hsep

/-- Whitespace collapsing never creates an occurrence of a separator-free,
non-whitespace-literal pattern. -/
theorem collapseWs_pullback (Q : List Tok) (hsep : Tok.sepOpt ∉ Q)
    (hnw : litsNonWs Q = true) (s : List Char)
    (h : occursIn Q (collapseWs s)) : occursIn Q s := by
  have hcorr : WsCorr s (collapseWs s) := wsCorr_repAux s.length s le_rfl
  obtain ⟨a, mid, b, he, hm⟩ := h
  rw [List.append_assoc] at he
  obtain ⟨s1, s2, rfl, hcorr2⟩ := wscorr_split hcorr a (mid ++ b) he
  obtain ⟨mids, bs, hs2e, hm2⟩ := wscorr_swm Q hsep hnw s2 (mid ++ b) hcorr2 mid b rfl hm
  exact ⟨s1, mids, bs, by rw [hs2e, List.append_assoc], hm2⟩

theorem takeWhile_append_dropWhile_eq {p : Char → Bool} (l : List Char) :
    l.takeWhile p ++ l.dropWhile p = l := by
  induction l with
  | nil => rfl
  | cons a t ih =>
    cases hpa : p a with
    | true => simp [List.takeWhile_cons, List.dropWhile_cons, hpa, ih]
    | false => simp [List.takeWhile_cons, List.dropWhile_cons, hpa]

/-- `trim` only removes characters at the two ends, so occurrences in the
trimmed string pull back. -/
theorem trimJs_pullback (Q : List Tok) (s : List Char)
    (h : occursIn Q (trimJs s)) : occursIn Q s := by
  have hAB : ((s.dropWhile isJsWs).reverse.takeWhile isJsWs) ++
      ((s.dropWhile isJsWs).reverse.dropWhile isJsWs) = (s.dropWhile isJsWs).reverse :=
    takeWhile_append_dropWhile_eq _
  have h2 := congrArg List.reverse hAB
  rw [List.reverse_append, List.reverse_reverse] at h2
  have hs : s = s.takeWhile isJsWs ++
      (trimJs s ++ ((s.dropWhile isJsWs).reverse.takeWhile isJsWs).reverse) := by
    rw [show trimJs s = ((s.dropWhile isJsWs).reverse.dropWhile isJsWs).reverse from rfl]
    rw [h2]
    exact (takeWhile_append_dropWhile_eq s).symm
  rw [hs]
  exact occursIn_append_right Q _ _ (occursIn_append_left Q _ _ h)

set_option maxHeartbeats 4000000 in
/-- C3 (amended): for every retrieval row, the sanitized fragment text
contains no occurrence of the ignore-previous-instructions,
disregard-all-prior-rules, `system:` or `developer:` patterns: these four
scrubs are complete.  (The tool-call and api-key patterns are excluded: the
tool-call replacement marker itself contains `tool-call`, and the whitespace
collapse that runs after the scrubs can rebuild `api key` / `tool call` from
separator characters the `[_ -]` class does not cover, as the counterexample
shows.) -/
theorem sanitizeRagText_scrubs_core_patterns (row : ContentVectorRow) :
    ¬ occursIn pIgnorePrev ((mapRow row).textContent.toList) ∧
    ¬ occursIn pDisregard ((mapRow row).textContent.toList) ∧
    ¬ occursIn pSystemColon ((mapRow row).textContent.toList) ∧
    ¬ occursIn pDeveloperColon ((mapRow row).textContent.toList) := by
  have htl : (mapRow row).textContent.toList = sanitizeRagText row.text_content.toList := rfl
  rw [htl]
  generalize row.text_content.toList = v
  refine ⟨?_, ?_, ?_, ?_⟩
  · intro hocc
    simp only [sanitizeRagText] at hocc
    have h1 := trimJs_pullback _ _ hocc
    have h2 := collapseWs_pullback _ (by decide) (by decide) _ h1
    have h3 := replaceAll_no_create pIgnorePrev pApiKey mCredentialLike (by decide)
      (by decide) (by decide) (by decide) (by decide) _ h2
    have h4 := replaceAll_no_create pIgnorePrev pToolCall mToolCallMimic (by decide)
      (by decide) (by decide) (by decide) (by decide) _ h3
    have h5 := replaceAll_no_create pIgnorePrev pDeveloperColon mRoleMimic (by decide)
      (by decide) (by decide) (by decide) (by decide) _ h4
    have h6 := replaceAll_no_create pIgnorePrev pSystemColon mSystemMimic (by decide)
      (by decide) (by decide) (by decide) (by decide) _ h5
    have h7 := replaceAll_no_create pIgnorePrev pDisregard mInstructionLike (by decide)
      (by decide) (by decide) (by decide) (by decide) _ h6
    exact replaceAll_self_scrub pIgnorePrev mInstructionLike (by decide) (by decide)
      (by decide) (by decide) (by decide) (by decide) _ h7
  · intro hocc
    simp only [sanitizeRagText] at hocc
    have h1 := trimJs_pullback _ _ hocc
    have h2 := collapseWs_pullback _ (by decide) (by decide) _ h1
    have h3 := replaceAll_no_create pDisregard pApiKey mCredentialLike (by decide)
      (by decide) (by decide) (by decide) (by decide) _ h2
    have h4 := replaceAll_no_create pDisregard pToolCall mToolCallMimic (by decide)
      (by decide) (by decide) (by decide) (by decide) _ h3
    have h5 := replaceAll_no_create pDisregard pDeveloperColon mRoleMimic (by decide)
      (by decide) (by decide) (by decide) (by decide) _ h4
    have h6 := replaceAll_no_create pDisregard pSystemColon mSystemMimic (by decide)
      (by decide) (by decide) (by decide) (by decide) _ h5
    exact replaceAll_self_scrub pDisregard mInstructionLike (by decide) (by decide)
      (by decide) (by decide) (by decide) (by decide) _ h6
  · intro hocc
    simp only [sanitizeRagText] at hocc
    have h1 := trimJs_pullback _ _ hocc
    have h2 := collapseWs_pullback _ (by decide) (by decide) _ h1
    have h3 := replaceAll_no_create pSystemColon pApiKey mCredentialLike (by decide)
      (by decide) (by decide) (by decide) (by decide) _ h2
    have h4 := replaceAll_no_create pSystemColon pToolCall mToolCallMimic (by decide)
      (by decide) (by decide) (by decide) (by decide) _ h3
    have h5 := replaceAll_no_create pSystemColon pDeveloperColon mRoleMimic (by decide)
      (by decide) (by decide) (by decide) (by decide) _ h4
    exact replaceAll_self_scrub pSystemColon mSystemMimic (by decide) (by decide)
      (by decide) (by decide) (by decide) (by decide) _ h5
  · intro hocc
    simp only [sanitizeRagText] at hocc
    have h1 := trimJs_pullback _ _ hocc
    have h2 := collapseWs_pullback _ (by decide) (by decide) _ h1
    have h3 := replaceAll_no_create pDeveloperColon pApiKey mCredentialLike (by decide)
      (by decide) (by decide) (by decide) (by decide) _ h2
    have h4 := replaceAll_no_create pDeveloperColon pToolCall mToolCallMimic (by decide)
      (by decide) (by decide) (by decide) (by decide) _ h3
    exact replaceAll_self_scrub pDeveloperColon mRoleMimic (by decide) (by decide)
      (by decide) (by decide) (by decide) (by decide) _ h4
